import Mathlib

/-
Verification development for the codx snippet library: a shallow embedding of
the storage layer (src/codx/core/database.py) and of the search pipeline
(src/codx/utils/search.py), together with theorems settling the specification
claims about them.

Strings are modelled as lists of characters.  SQLite machinery that is not part
of the repository's own sources (the schema file, the FTS5 engine, the fuzzy
scorer of the external fuzzywuzzy package) is modelled from the specification's
description; every such definition carries a doc comment saying so.
-/

namespace Codx

/-- Strings are modelled as lists of characters. -/
abbrev Str := List Char

/-- Convert a Lean string literal into the character-list representation. -/
def strOf (s : String) : Str := s.data

/-- Case lowering (ASCII, as `Char.toLower` and SQLite's `LIKE` treat case). -/
def lowerStr (s : Str) : Str := s.map Char.toLower

/-- Python `str.strip()`: drop whitespace from both ends. -/
def stripWs (s : Str) : Str :=
  ((s.dropWhile Char.isWhitespace).reverse.dropWhile Char.isWhitespace).reverse

/-- The tag-name normalization performed by `add_snippet` and `update_snippet`:
`tag.strip().lower()`. -/
def normTag (s : Str) : Str := lowerStr (stripWs s)

/-- The normalized, non-blank tag names of an input tag list, in order. -/
def normFilter (tags : List Str) : List Str :=
  (tags.map normTag).filter (fun n => !n.isEmpty)

/-- The separator `", "` used by the display queries (`GROUP_CONCAT(t.name, ', ')`)
and by the row mapping (`row[6].split(', ')`). -/
def commaSpace : Str := [ ',', ' ' ]

/-- Whether a string contains the two-character sequence `", "`. -/
def hasCS : Str → Bool
  | [] => false
  | [_] => false
  | c :: d :: rest => ((c == ',') && (d == ' ')) || hasCS (d :: rest)

/-- Python `str.split(", ")` specialized to the comma-space separator:
scan left to right, cutting at each non-overlapping occurrence. -/
def splitOnCSGo : Str → Str → List Str
  | [], acc => [acc.reverse]
  | [c], acc => [(c :: acc).reverse]
  | c :: d :: rest, acc =>
    if c = ',' ∧ d = ' ' then acc.reverse :: splitOnCSGo rest []
    else splitOnCSGo (d :: rest) (c :: acc)

/-- Python `joined.split(", ")`. -/
def splitOnCS (s : Str) : List Str := splitOnCSGo s []

/-- Python `str.split()` (split on whitespace runs, dropping empty chunks):
the worker carries the current chunk in reverse. -/
def splitWsGo (cur : Str) : Str → List Str
  | [] => if cur.isEmpty then [] else [cur.reverse]
  | c :: rest =>
    if c.isWhitespace then
      if cur.isEmpty then splitWsGo [] rest
      else cur.reverse :: splitWsGo [] rest
    else splitWsGo (c :: cur) rest

/-- Python `str.split()` with no arguments. -/
def splitWs (s : Str) : List Str := splitWsGo [] s

/-- `cleaned_query.replace(char, ' ')` for a single character. -/
def replaceChar (c : Char) (s : Str) : Str :=
  s.map (fun x => if x = c then ' ' else x)

/-- The characters stripped by `_prepare_fts_query`
(`['"', "'", '(', ')', '*', ':', '^']`). -/
def special_chars : List Char := [ '"', '\'', '(', ')', '*', ':', '^' ]

/-- `Database._prepare_fts_query`: replace FTS5-significant characters by
spaces, split on whitespace, strip the words, drop blanks, append `*` to every
word of length at least two, and join with single spaces; an empty word list
yields the two-character query `""`. -/
def prepare_fts_query (q : Str) : Str :=
  let cleaned := special_chars.foldl (fun acc c => replaceChar c acc) q
  let words := ((splitWs cleaned).map stripWs).filter (fun w => !w.isEmpty)
  if words.isEmpty then [ '"', '"' ]
  else List.intercalate [ ' ' ] (words.map (fun w => if 2 ≤ w.length then w ++ [ '*' ] else w))

/-- Whether `p` starts the word `w` (exact character match). -/
def startsWithStr : Str → Str → Bool
  | [], _ => true
  | _ :: _, [] => false
  | p :: ps, c :: cs => (p == c) && startsWithStr ps cs

/-- Whether `q` occurs as a contiguous substring of `s` (exact characters). -/
def subStr (q : Str) : Str → Bool
  | [] => q.isEmpty
  | s@(_ :: rest) => startsWithStr q s || subStr q rest

/-- Case-insensitive substring containment, the matching relation the spec
ascribes to the fallback search. -/
def ciContains (q s : Str) : Bool := subStr (lowerStr q) (lowerStr s)

/-- Whether a string is free of the `LIKE` wildcard characters `%` and `_`. -/
def noWildcards (q : Str) : Bool := q.all (fun c => c != '%' && c != '_')

/-- Modelled from the spec: SQLite's `LIKE` operator (the storage engine is an
external collaborator).  `%` matches any sequence, `_` any single character,
and plain characters match ASCII-case-insensitively. -/
def likeMatch : Str → Str → Bool
  | [], s => s.isEmpty
  | p :: ps, s =>
    if p = '%' then s.tails.any (fun t => likeMatch ps t)
    else if p = '_' then (match s with | [] => false | _ :: s2 => likeMatch ps s2)
    else
      (match s with
       | [] => false
       | c :: s2 => (Char.toLower p == Char.toLower c) && likeMatch ps s2)

/-- A single FTS5 term of a prepared query: a trailing `*` makes it a prefix
pattern, otherwise the token must match the word exactly. -/
def ftsTermMatch (t w : Str) : Bool :=
  if t.getLast? = some '*' then startsWithStr t.dropLast w else t == w

/-- Modelled from the spec: the FTS5 engine's matching of a prepared query
against a tokenized document — all terms must match some word, and the empty
phrase query `""` matches no row. -/
def ftsMatchDoc (q : Str) (doc : List Str) : Bool :=
  if q = [ '"', '"' ] then false
  else (splitWs q).all (fun t => doc.any (fun w => ftsTermMatch t w))

/-- Stable insertion (descending by `key`) used to model deterministic
descending sorts: the new element goes before the first element whose key is
not greater, so earlier elements win ties. -/
def insertDescBy {α β : Type} [LinearOrder β] (key : α → β) (x : α) : List α → List α
  | [] => [x]
  | y :: ys => if key x < key y then y :: insertDescBy key x ys else x :: y :: ys

/-- Stable descending sort by `key`. -/
def sortDescBy {α β : Type} [LinearOrder β] (key : α → β) : List α → List α
  | [] => []
  | x :: xs => insertDescBy key x (sortDescBy key xs)

/-- A row of the `snippets` table. -/
structure Snippet where
  id : Nat
  description : Str
  content : Str
  language : Str
  created_at : Nat
  updated_at : Nat
deriving DecidableEq

/-- A row of the `tags` table. -/
structure TagRow where
  id : Nat
  name : Str
deriving DecidableEq

/-- A row of the derived `snippets_fts` index table. -/
structure FtsEntry where
  description : Str
  content : Str
  language : Str
  tags : Str
  content_id : Nat
deriving DecidableEq

/-- The store: primary tables, link table, derived index, the id counters of
the two autoincrement columns, and a clock supplying creation timestamps. -/
structure DBState where
  snippets : List Snippet
  tags : List TagRow
  snippet_tags : List (Nat × Nat)
  fts : List FtsEntry
  nextSnippetId : Nat
  nextTagId : Nat
  clock : Nat
deriving DecidableEq

/-- The freshly initialized store. -/
def initState : DBState := ⟨[], [], [], [], 1, 1, 0⟩

/-- `SELECT name FROM tags WHERE id = ?`. -/
def lookupTagName (s : DBState) (tid : Nat) : Option Str :=
  (s.tags.find? (fun t => t.id == tid)).map TagRow.name

/-- The tag names linked to snippet `sid`, in link order — the rows the
`LEFT JOIN snippet_tags / LEFT JOIN tags` aggregation ranges over. -/
def tagNamesOf (s : DBState) (sid : Nat) : List Str :=
  ((s.snippet_tags.filter (fun p => p.1 == sid)).map Prod.snd).filterMap (lookupTagName s)

/-- The derived index entry for one snippet, exactly as `populate_fts_table`
builds it: primary columns plus `COALESCE(GROUP_CONCAT(t.name, ' '), '')`. -/
def projEntry (s : DBState) (r : Snippet) : FtsEntry :=
  ⟨r.description, r.content, r.language, List.intercalate [ ' ' ] (tagNamesOf s r.id), r.id⟩

/-- Modelled from the spec: `schema.sql` is not under `src/`; the spec (§3)
requires every insert/update/delete of a snippet to keep the derived index
consistent within the same transaction.  This is the per-snippet index write:
drop the entries bearing `sid` and regenerate one from current data when the
snippet exists. -/
def syncFts (s : DBState) (sid : Nat) : DBState :=
  { s with fts := s.fts.filter (fun e => e.content_id != sid)
                    ++ (s.snippets.filter (fun r => r.id == sid)).map (projEntry s) }

/-- `SELECT ... FROM snippets WHERE id = ?`. -/
def findSnippet (s : DBState) (sid : Nat) : Option Snippet :=
  s.snippets.find? (fun r => r.id == sid)

/-- Python's `row[i] or ''` applied to a text column. -/
def orEmpty (s : Str) : Str := if s.isEmpty then [] else s

/-- The tag list a read query reports for snippet `sid`:
`row[6].split(', ') if row[6] else []` over `GROUP_CONCAT(t.name, ', ')`. -/
def joinedTags (s : DBState) (sid : Nat) : List Str :=
  let joined := List.intercalate commaSpace (tagNamesOf s sid)
  if joined.isEmpty then [] else splitOnCS joined

/-- The dictionary `get_snippet_by_id` (and the search queries) build per row. -/
structure SnippetView where
  id : Nat
  description : Str
  content : Str
  language : Str
  created_at : Nat
  updated_at : Nat
  tags : List Str
deriving DecidableEq

/-- `Database.get_snippet_by_id`: the row joined with its aggregated tags, or
`None` when the id is absent. -/
def get_snippet_by_id (s : DBState) (sid : Nat) : Option SnippetView :=
  match findSnippet s sid with
  | none => none
  | some r =>
    some ⟨r.id, orEmpty r.description, r.content, orEmpty r.language,
          r.created_at, r.updated_at, joinedTags s sid⟩

/-- `INSERT OR IGNORE INTO tags (name) VALUES (?)` followed by
`SELECT id FROM tags WHERE name = ?` (tag names are unique). -/
def ensureTag (s : DBState) (name : Str) : DBState × Nat :=
  match s.tags.find? (fun t => t.name == name) with
  | some t => (s, t.id)
  | none =>
    ({ s with tags := s.tags ++ [⟨s.nextTagId, name⟩], nextTagId := s.nextTagId + 1 },
     s.nextTagId)

/-- One iteration of the tag loop of `add_snippet`: normalize, skip blanks,
ensure the tag row, then `INSERT OR IGNORE` the link. -/
def addTagLink (sid : Nat) (s : DBState) (rawTag : Str) : DBState :=
  let name := normTag rawTag
  if name.isEmpty then s
  else
    let p := ensureTag s name
    if (sid, p.2) ∈ p.1.snippet_tags then p.1
    else { p.1 with snippet_tags := p.1.snippet_tags ++ [(sid, p.2)] }

/-- `Database.add_snippet`: insert the row (fresh id, both timestamps stamped
now), run the tag loop, and (modelled from the spec) write the index entry in
the same transaction.  Returns the new id. -/
def add_snippet (s : DBState) (d c l : Str) (tags : List Str) : DBState × Nat :=
  let sid := s.nextSnippetId
  let row : Snippet := ⟨sid, d, c, l, s.clock, s.clock⟩
  let s1 : DBState :=
    { s with snippets := s.snippets ++ [row], nextSnippetId := sid + 1, clock := s.clock + 1 }
  let s2 := tags.foldl (addTagLink sid) s1
  (syncFts s2 sid, sid)

/-- The engine's message for inserting a duplicate row into the link table.
Modelled from the spec: `schema.sql` is not under `src/`, and the spec's
invariant — at most one link per (snippet, tag) pair — is realized by a
uniqueness constraint on the pair; that constraint is what lets the
`INSERT OR IGNORE` of `add_snippet` skip an existing pair, and it makes the
plain `INSERT` of `update_snippet` raise this engine error when it hits an
existing pair instead of appending a second row. -/
def uniqueViolation : Str :=
  strOf "UNIQUE constraint failed: snippet_tags.snippet_id, snippet_tags.tag_id"

/-- The tag loop of `update_snippet`: per raw tag, normalize, skip blanks,
ensure the tag row, then a plain `INSERT` of the link (no `OR IGNORE`).
Inserting a (snippet, tag) pair already present violates the link table's
uniqueness constraint and raises, aborting the rest of the loop. -/
def insertLinks (sid : Nat) : DBState → List Str → Except Str DBState
  | s, [] => Except.ok s
  | s, raw :: rest =>
    if (normTag raw).isEmpty then insertLinks sid s rest
    else if (sid, (ensureTag s (normTag raw)).2) ∈ (ensureTag s (normTag raw)).1.snippet_tags
      then Except.error uniqueViolation
    else insertLinks sid
      { (ensureTag s (normTag raw)).1 with
          snippet_tags := (ensureTag s (normTag raw)).1.snippet_tags
            ++ [(sid, (ensureTag s (normTag raw)).2)] } rest

/-- `Database.update_snippet`: if the id is absent return `False`; otherwise
replace description/content/language (the update statement does not touch the
timestamps), delete the id's links, re-insert links for the new tag list with
plain `INSERT`s, and (modelled from the spec) rewrite the index entry in the
same transaction.  A link insert that violates the uniqueness constraint is
caught by the method's `except sqlite3.Error` handler: the transaction rolls
back — the caller observes the pre-transaction state — and the error is
re-raised as `Failed to update snippet: <cause>`. -/
def update_snippet (s : DBState) (sid : Nat) (d c l : Str) (tags : List Str) :
    DBState × Except Str Bool :=
  match findSnippet s sid with
  | none => (s, Except.ok false)
  | some _ =>
    match insertLinks sid
        { s with
            snippets := s.snippets.map (fun r =>
              if r.id == sid then { r with description := d, content := c, language := l }
              else r),
            snippet_tags := s.snippet_tags.filter (fun p => p.1 != sid) } tags with
    | Except.error e => (s, Except.error (strOf "Failed to update snippet: " ++ e))
    | Except.ok s3 => (syncFts s3 sid, Except.ok true)

/-- `Database.delete_snippet`: if the id is absent return `False`; otherwise
delete the id's links, then its row; (modelled from the spec) the index entry
goes in the same transaction. -/
def delete_snippet (s : DBState) (sid : Nat) : DBState × Bool :=
  match findSnippet s sid with
  | none => (s, false)
  | some _ =>
    let s1 : DBState := { s with snippet_tags := s.snippet_tags.filter (fun p => p.1 != sid) }
    let s2 : DBState := { s1 with snippets := s1.snippets.filter (fun r => r.id != sid) }
    (syncFts s2 sid, true)

/-- `Database.populate_fts_table`: `DELETE FROM snippets_fts`, then insert one
entry per snippet from current primary plus aggregated-tag data. -/
def populate_fts_table (s : DBState) : DBState :=
  { s with fts := s.snippets.map (projEntry s) }

/-- A search result row: the snippet dictionary extended with a `rank`. -/
structure SearchRow where
  id : Nat
  description : Str
  content : Str
  language : Str
  created_at : Nat
  updated_at : Nat
  tags : List Str
  rank : Rat
deriving DecidableEq

/-- `Database._fallback_search`: rows whose description, content or language
match `LIKE '%' || query || '%'`, newest-created first, capped at `limit`,
each with rank 0. -/
def fallback_search (s : DBState) (query : Str) (limit : Nat) : List SearchRow :=
  let pat : Str := [ '%' ] ++ query ++ [ '%' ]
  let rows := s.snippets.filter (fun r =>
    likeMatch pat r.description || likeMatch pat r.content || likeMatch pat r.language)
  ((sortDescBy (fun r => r.created_at) rows).take limit).map (fun r =>
    ⟨r.id, orEmpty r.description, r.content, orEmpty r.language,
     r.created_at, r.updated_at, joinedTags s r.id, 0⟩)

/-- The derived index is a faithful cache of the primary tables: for every id,
the entries bearing it are exactly the projection of the snippets bearing it. -/
def ftsConsistent (s : DBState) : Prop :=
  ∀ sid : Nat, s.fts.filter (fun e => e.content_id == sid)
      = (s.snippets.filter (fun r => r.id == sid)).map (projEntry s)

/-- Well-formedness of the `snippets` table: distinct ids below the id
counter, and timestamps below the clock. -/
def WFsnips (s : DBState) : Prop :=
  (s.snippets.map Snippet.id).Nodup ∧
  (∀ r ∈ s.snippets, r.id < s.nextSnippetId ∧ r.created_at < s.clock ∧ r.updated_at < s.clock)

/-- Well-formedness of the `tags` table: distinct ids below the id counter and
distinct (unique-constrained) names. -/
def WFtags (s : DBState) : Prop :=
  (s.tags.map TagRow.id).Nodup ∧
  (s.tags.map TagRow.name).Nodup ∧
  (∀ t ∈ s.tags, t.id < s.nextTagId)

/-- Well-formedness of the link table: links reference already-issued snippet
ids and existing tag rows. -/
def WFlinks (s : DBState) : Prop :=
  ∀ p ∈ s.snippet_tags, p.1 < s.nextSnippetId ∧ ∃ t ∈ s.tags, t.id = p.2

/-- Structural well-formedness of a store. -/
def WFdb (s : DBState) : Prop := WFsnips s ∧ WFtags s ∧ WFlinks s

/-- The store states reachable from initialization through the storage API. -/
inductive Reachable : DBState → Prop
  | init : Reachable initState
  | add (s : DBState) (d c l : Str) (tags : List Str) :
      Reachable s → Reachable (add_snippet s d c l tags).1
  | update (s : DBState) (sid : Nat) (d c l : Str) (tags : List Str) :
      Reachable s → Reachable (update_snippet s sid d c l tags).1
  | del (s : DBState) (sid : Nat) :
      Reachable s → Reachable (delete_snippet s sid).1
  | pop (s : DBState) : Reachable s → Reachable (populate_fts_table s)

/-- `add_snippet` with its try/except wrapper: an engine error anywhere in the
transaction rolls back (the caller observes the pre-transaction state) and is
re-raised as `Exception("Failed to add snippet: " + cause)`. -/
def add_snippet_run (s : DBState) (d c l : Str) (tags : List Str)
    (engineError : Option Str) : DBState × Except Str Nat :=
  match engineError with
  | some e => (s, Except.error (strOf "Failed to add snippet: " ++ e))
  | none => let p := add_snippet s d c l tags; (p.1, Except.ok p.2)

/-- `update_snippet` under an injected engine error in the transactional
write: rollback then re-raise as
`Exception("Failed to update snippet: " + cause)`; with no injected error it
is the plain operation, whose own handler already wraps an internal
constraint violation the same way. -/
def update_snippet_run (s : DBState) (sid : Nat) (d c l : Str) (tags : List Str)
    (engineError : Option Str) : DBState × Except Str Bool :=
  match engineError with
  | some e => (s, Except.error (strOf "Failed to update snippet: " ++ e))
  | none => update_snippet s sid d c l tags

/-- `delete_snippet` with its try/except wrapper: an engine error rolls back
and the method returns `False` instead of raising. -/
def delete_snippet_run (s : DBState) (sid : Nat)
    (engineError : Option Str) : DBState × Except Str Bool :=
  match engineError with
  | some _ => (s, Except.ok false)
  | none => let p := delete_snippet s sid; (p.1, Except.ok p.2)

/-- The connection-lifecycle state of a `Database` instance:
`connection is None` ↔ `connectionOpen = false`, plus the `_closed` flag. -/
structure Handle where
  connectionOpen : Bool
  closed : Bool
deriving DecidableEq

/-- A freshly constructed `Database`: no connection yet, not closed. -/
def newHandle : Handle := ⟨false, false⟩

/-- `Database.connect`: raise `ProgrammingError` when closed, otherwise open
the connection lazily and return it. -/
def hConnect (h : Handle) : Except Str Handle :=
  if h.closed then Except.error (strOf "Cannot operate on a closed database.")
  else if h.connectionOpen then Except.ok h
  else Except.ok { h with connectionOpen := true }

/-- `Database.close`: close any connection and set `_closed`. -/
def hClose (_h : Handle) : Handle := ⟨false, true⟩

/-- Every storage operation begins with `self.connect()`; this runs an
operation through that guard. -/
def runOp {α : Type} (h : Handle) (op : DBState → DBState × α) (s : DBState) :
    Except Str (Handle × DBState × α) :=
  match hConnect h with
  | Except.error e => Except.error e
  | Except.ok h2 => Except.ok (h2, (op s).1, (op s).2)

/-- The searchable blob `_enhance_with_fuzzy_search` builds per snippet:
`f"{description} {content} {language} {' '.join(tags)}"`. -/
def searchableText (r : SearchRow) : Str :=
  r.description ++ [ ' ' ] ++ r.content ++ [ ' ' ] ++ r.language ++ [ ' ' ]
    ++ List.intercalate [ ' ' ] r.tags

/-- Modelled from the spec: `fuzzywuzzy.process.extract` (external library) —
score every choice with the scorer against the query and return the best
`limit` (choice, score) pairs in descending score order. -/
def processExtract (scorer : Str → Str → Nat) (query : Str) (texts : List Str)
    (limit : Nat) : List (Str × Nat) :=
  (sortDescBy (fun p => p.2) (texts.map (fun t => (t, scorer query t)))).take limit

/-- A result of the fuzzy re-ranking stage: the snippet dictionary with its
`_score` and `_fuzzy_score` fields. -/
structure ScoredRow where
  row : SearchRow
  score : Rat
  fuzzy : Nat
deriving DecidableEq

/-- `_enhance_with_fuzzy_search`: build the blobs, run the scorer stage capped
at `limit`, keep matches scoring strictly above 60, resolve each match text to
the first snippet bearing that blob, blend `0.7×fuzzy + 0.3×rank` when the
FTS rank is nonzero (else the fuzzy score alone), and sort descending by the
combined score. -/
def enhance_with_fuzzy_search (scorer : Str → Str → Nat) (snippets : List SearchRow)
    (query : Str) (limit : Nat) : List ScoredRow :=
  if snippets.isEmpty then []
  else
    let searchable := snippets.map (fun sn => (searchableText sn, sn))
    let best := processExtract scorer query (searchable.map Prod.fst) limit
    let result := best.filterMap (fun m =>
      if 60 < m.2 then
        match searchable.find? (fun p => p.1 == m.1) with
        | some p =>
          some ⟨p.2,
                if p.2.rank ≠ 0 then (m.2 : Rat) * (7 / 10) + p.2.rank * (3 / 10)
                else (m.2 : Rat),
                m.2⟩
        | none => none
      else none)
    sortDescBy (fun r => r.score) result

/-- The sanitization map of the claim: FTS5-significant characters become
spaces, everything else is kept. -/
def cleanChar (x : Char) : Char := if x ∈ special_chars then ' ' else x

/-- Links reference existing tag rows. -/
def LinksTagWF (s : DBState) : Prop :=
  ∀ p ∈ s.snippet_tags, ∃ t ∈ s.tags, t.id = p.2

/-- What one iteration of either tag loop does to the store, relative to the
snippet id `sid` being linked. -/
def LinkStep (sid : Nat) (sA sB : DBState) : Prop :=
  sB.snippets = sA.snippets ∧
  sB.fts = sA.fts ∧
  sB.nextSnippetId = sA.nextSnippetId ∧
  sB.clock = sA.clock ∧
  sA.nextTagId ≤ sB.nextTagId ∧
  (∃ dt, sB.tags = sA.tags ++ dt) ∧
  (∃ dl, sB.snippet_tags = sA.snippet_tags ++ dl ∧ ∀ p ∈ dl, p.1 = sid) ∧
  (WFtags sA → WFtags sB) ∧
  (LinksTagWF sA → LinksTagWF sB)

/-- The match-to-result step of `_enhance_with_fuzzy_search`, named so the
claims can reason about it. -/
def resolveMatch (searchable : List (Str × SearchRow)) (m : Str × Nat) :
    Option ScoredRow :=
  if 60 < m.2 then
    match searchable.find? (fun p => p.1 == m.1) with
    | some p =>
      some ⟨p.2,
            if p.2.rank ≠ 0 then (m.2 : Rat) * (7 / 10) + p.2.rank * (3 / 10)
            else (m.2 : Rat),
            m.2⟩
    | none => none
  else none

/-- A candidate row used by the C5 and C10 concrete instances. -/
def exRowA : SearchRow := ⟨1, strOf "dA", strOf "cA", strOf "py", 0, 0, [], 0⟩

/-- A second candidate row with a different searchable blob. -/
def exRowB : SearchRow := ⟨2, strOf "dB", strOf "cB", strOf "py", 0, 0, [], 0⟩

/-- A scorer giving `exRowA`'s blob 100 and every other blob 61. -/
def exScorer : Str → Str → Nat :=
  fun _ t => if t == searchableText exRowA then 100 else 61

/- ------------------------------------------------------------------ -/
/- Generic lemmas about the stable descending sort                     -/
/- ------------------------------------------------------------------ -/

theorem insertDescBy_perm {α β : Type} [LinearOrder β] (key : α → β) (x : α) :
    ∀ l : List α, (insertDescBy key x l).Perm (x :: l) := by
  intro l
  induction l with
  | nil => simp [insertDescBy]
  | cons y ys ih =>
    simp only [insertDescBy]
    by_cases h : key x < key y
    · simp only [if_pos h]
      exact ((ih.cons y).trans (List.Perm.swap x y ys))
    · simp [if_neg h]

theorem sortDescBy_perm {α β : Type} [LinearOrder β] (key : α → β) :
    ∀ l : List α, (sortDescBy key l).Perm l := by
  intro l
  induction l with
  | nil => simp [sortDescBy]
  | cons x xs ih =>
    simpa [sortDescBy] using (insertDescBy_perm key x (sortDescBy key xs)).trans (ih.cons x)

theorem mem_sortDescBy {α β : Type} [LinearOrder β] (key : α → β) (l : List α) (a : α) :
    a ∈ sortDescBy key l ↔ a ∈ l :=
  (sortDescBy_perm key l).mem_iff

theorem length_sortDescBy {α β : Type} [LinearOrder β] (key : α → β) (l : List α) :
    (sortDescBy key l).length = l.length :=
  (sortDescBy_perm key l).length_eq

theorem insertDescBy_pairwise {α β : Type} [LinearOrder β] (key : α → β) (x : α)
    (l : List α) (hl : l.Pairwise (fun a b => key b ≤ key a)) :
    (insertDescBy key x l).Pairwise (fun a b => key b ≤ key a) := by
  induction l with
  | nil => simp [insertDescBy]
  | cons y ys ih =>
    rcases List.pairwise_cons.mp hl with ⟨hy, hys⟩
    simp only [insertDescBy]
    by_cases h : key x < key y
    · rw [if_pos h]
      refine List.pairwise_cons.mpr ⟨?_, ih hys⟩
      intro b hb
      rcases List.mem_cons.mp ((insertDescBy_perm key x ys).mem_iff.mp hb) with rfl | hbys
      · exact le_of_lt h
      · exact hy b hbys
    · rw [if_neg h]
      refine List.pairwise_cons.mpr ⟨?_, hl⟩
      intro b hb
      rcases List.mem_cons.mp hb with rfl | hbys
      · exact le_of_not_lt h
      · exact le_trans (hy b hbys) (le_of_not_lt h)

theorem sortDescBy_pairwise {α β : Type} [LinearOrder β] (key : α → β) :
    ∀ l : List α, (sortDescBy key l).Pairwise (fun a b => key b ≤ key a) := by
  intro l
  induction l with
  | nil => simp [sortDescBy]
  | cons x xs ih => exact insertDescBy_pairwise key x _ ih

/- ------------------------------------------------------------------ -/
/- Lemmas about Python str.split() (splitWs)                           -/
/- ------------------------------------------------------------------ -/

theorem splitWsGo_tokens :
    ∀ (l cur : Str), (∀ c ∈ cur, ¬ c.isWhitespace) →
      ∀ t ∈ splitWsGo cur l, t ≠ [] ∧ (∀ c ∈ t, ¬ c.isWhitespace) ∧ (∀ c ∈ t, c ∈ cur ∨ c ∈ l) := by
  intro l
  induction l with
  | nil =>
    intro cur hcur t ht
    simp only [splitWsGo] at ht
    by_cases hc : cur.isEmpty
    · simp [hc] at ht
    · rw [if_neg hc] at ht
      rw [List.mem_singleton] at ht
      subst ht
      refine ⟨?_, ?_, ?_⟩
      · intro hrev
        exact hc (by simp [List.isEmpty_iff, List.reverse_eq_nil_iff.mp hrev])
      · intro c hcmem; exact hcur c (List.mem_reverse.mp hcmem)
      · intro c hcmem; exact Or.inl (List.mem_reverse.mp hcmem)
  | cons a rest ih =>
    intro cur hcur t ht
    simp only [splitWsGo] at ht
    by_cases ha : a.isWhitespace
    · rw [if_pos ha] at ht
      by_cases hc : cur.isEmpty
      · rw [if_pos hc] at ht
        rcases ih [] (by intro c hc2; exact absurd hc2 (List.not_mem_nil c)) t ht with ⟨h1, h2, h3⟩
        exact ⟨h1, h2, fun c hcm => (h3 c hcm).elim
          (fun h => absurd h (List.not_mem_nil c))
          (fun h => Or.inr (List.mem_cons_of_mem a h))⟩
      · rw [if_neg hc] at ht
        rcases List.mem_cons.mp ht with rfl | h
        · refine ⟨?_, ?_, ?_⟩
          · intro hrev
            exact hc (by simp [List.isEmpty_iff, List.reverse_eq_nil_iff.mp hrev])
          · intro c hcmem; exact hcur c (List.mem_reverse.mp hcmem)
          · intro c hcmem; exact Or.inl (List.mem_reverse.mp hcmem)
        · rcases ih [] (by intro c hc2; exact absurd hc2 (List.not_mem_nil c)) t h with ⟨h1, h2, h3⟩
          exact ⟨h1, h2, fun c hcm => (h3 c hcm).elim
            (fun h2 => absurd h2 (List.not_mem_nil c))
            (fun h2 => Or.inr (List.mem_cons_of_mem a h2))⟩
    · rw [if_neg ha] at ht
      rcases ih (a :: cur) (by
        intro c hc2
        rcases List.mem_cons.mp hc2 with rfl | h
        · exact ha
        · exact hcur c h) t ht with ⟨h1, h2, h3⟩
      refine ⟨h1, h2, fun c hcm => ?_⟩
      rcases h3 c hcm with h | h
      · rcases List.mem_cons.mp h with rfl | h
        · exact Or.inr (List.mem_cons_self c rest)
        · exact Or.inl h
      · exact Or.inr (List.mem_cons_of_mem a h)

theorem splitWs_tokens (l : Str) :
    ∀ t ∈ splitWs l, t ≠ [] ∧ (∀ c ∈ t, ¬ c.isWhitespace) ∧ (∀ c ∈ t, c ∈ l) := by
  intro t ht
  rcases splitWsGo_tokens l [] (by intro c hc; exact absurd hc (List.not_mem_nil c)) t ht
    with ⟨h1, h2, h3⟩
  exact ⟨h1, h2, fun c hcm => (h3 c hcm).elim (fun h => absurd h (List.not_mem_nil c)) id⟩

theorem splitWsGo_eq_nil :
    ∀ (l cur : Str), splitWsGo cur l = [] ↔ (cur = [] ∧ ∀ c ∈ l, c.isWhitespace) := by
  intro l
  induction l with
  | nil =>
    intro cur
    simp only [splitWsGo]
    by_cases hc : cur.isEmpty
    · simp [hc, List.isEmpty_iff.mp hc]
    · simp only [if_neg hc]
      constructor
      · intro h; cases h
      · rintro ⟨rfl, -⟩; cases hc (by rfl)
  | cons a rest ih =>
    intro cur
    simp only [splitWsGo]
    by_cases ha : a.isWhitespace
    · rw [if_pos ha]
      by_cases hc : cur.isEmpty
      · rw [if_pos hc]
        rw [ih []]
        simp [List.isEmpty_iff.mp hc, ha]
      · rw [if_neg hc]
        constructor
        · intro h; cases h
        · rintro ⟨rfl, -⟩; cases hc (by rfl)
    · rw [if_neg ha]
      rw [ih (a :: cur)]
      constructor
      · rintro ⟨h, -⟩; cases h
      · rintro ⟨-, hall⟩
        exact absurd (hall a (List.mem_cons_self a rest)) ha

theorem splitWs_eq_nil (l : Str) : splitWs l = [] ↔ ∀ c ∈ l, c.isWhitespace := by
  rw [splitWs, splitWsGo_eq_nil]
  simp

/- ------------------------------------------------------------------ -/
/- Query preparation (claim C4)                                        -/
/- ------------------------------------------------------------------ -/

theorem dropWhileWs_eq_self (l : Str) (h : ∀ c ∈ l, ¬ c.isWhitespace) :
    l.dropWhile Char.isWhitespace = l := by
  cases l with
  | nil => rfl
  | cons a rest =>
    rw [List.dropWhile_cons]
    rw [if_neg (by simpa using h a (List.mem_cons_self a rest))]

theorem stripWs_eq_self (l : Str) (h : ∀ c ∈ l, ¬ c.isWhitespace) : stripWs l = l := by
  unfold stripWs
  rw [dropWhileWs_eq_self l h]
  rw [dropWhileWs_eq_self l.reverse (fun c hc => h c (List.mem_reverse.mp hc))]
  exact List.reverse_reverse l

theorem foldl_replaceChar (cs : List Char) (hsp : ' ' ∉ cs) :
    ∀ q : Str, cs.foldl (fun acc c => replaceChar c acc) q
      = q.map (fun x => if x ∈ cs then ' ' else x) := by
  induction cs with
  | nil =>
    intro q
    simp [List.foldl_nil]
  | cons c cs ih =>
    intro q
    have hsp2 : ' ' ∉ cs := fun h => hsp (List.mem_cons_of_mem c h)
    rw [List.foldl_cons, ih hsp2]
    unfold replaceChar
    rw [List.map_map]
    refine List.map_congr_left ?_
    intro x _
    by_cases hx : x = c
    · subst hx
      simp [if_neg hsp2]
    · by_cases hx2 : x ∈ cs <;> simp [hx, hx2, Function.comp]

theorem prepare_words (q : Str) :
    ((splitWs (q.map cleanChar)).map stripWs).filter (fun w => !w.isEmpty)
      = splitWs (q.map cleanChar) := by
  have htok := splitWs_tokens (q.map cleanChar)
  have hmap : (splitWs (q.map cleanChar)).map stripWs = splitWs (q.map cleanChar) := by
    have := List.map_congr_left (l := splitWs (q.map cleanChar))
      (f := stripWs) (g := id) (fun t ht => stripWs_eq_self t (htok t ht).2.1)
    simpa using this
  rw [hmap]
  rw [List.filter_eq_self]
  intro t ht
  simpa [List.isEmpty_iff] using (htok t ht).1

theorem clean_foldl (q : Str) :
    special_chars.foldl (fun acc c => replaceChar c acc) q = q.map cleanChar :=
  foldl_replaceChar special_chars (by decide) q

theorem prepare_fts_query_eq (q : Str) :
    prepare_fts_query q =
      (if splitWs (q.map cleanChar) = [] then [ '"', '"' ]
       else List.intercalate [ ' ' ] ((splitWs (q.map cleanChar)).map
         (fun w => if 2 ≤ w.length then w ++ [ '*' ] else w))) := by
  unfold prepare_fts_query
  simp only [clean_foldl, prepare_words]
  by_cases hnil : splitWs (q.map cleanChar) = []
  · rw [hnil]
    simp
  · rw [if_neg hnil]
    rw [if_neg (by simpa [List.isEmpty_iff] using hnil)]

/- ------------------------------------------------------------------ -/
/- LIKE patterns versus substring containment (claim C6)               -/
/- ------------------------------------------------------------------ -/

theorem likeMatch_nil (s : Str) : likeMatch [] s = s.isEmpty := by
  simp [likeMatch]

theorem likeMatch_percent_unfold (ps : List Char) (s : Str) :
    likeMatch ('%' :: ps) s = s.tails.any (fun t => likeMatch ps t) := by
  simp [likeMatch]

theorem likeMatch_percent (ps : List Char) (s : Str) :
    likeMatch ('%' :: ps) s = true ↔ ∃ t, t <:+ s ∧ likeMatch ps t = true := by
  rw [likeMatch_percent_unfold, List.any_eq_true]
  constructor
  · rintro ⟨t, ht, hp⟩
    exact ⟨t, (List.mem_tails t s).mp ht, hp⟩
  · rintro ⟨t, ht, hp⟩
    exact ⟨t, (List.mem_tails t s).mpr ht, hp⟩

theorem likeMatch_percent_nil (s : Str) : likeMatch [ '%' ] s = true := by
  rw [likeMatch_percent_unfold, List.any_eq_true]
  exact ⟨[], (List.mem_tails [] s).mpr List.nil_suffix, by simp [likeMatch]⟩

theorem startsWithStr_nil (q : Str) : startsWithStr q [] = q.isEmpty := by
  cases q <;> simp [startsWithStr]

theorem likeMatch_plain_percent (q : Str) (hq : noWildcards q = true) :
    ∀ s : Str, likeMatch (q ++ [ '%' ]) s = true
      ↔ startsWithStr (lowerStr q) (lowerStr s) = true := by
  induction q with
  | nil =>
    intro s
    simp only [List.nil_append, lowerStr, List.map_nil, startsWithStr]
    simp [likeMatch_percent_nil]
  | cons a q ih =>
    intro s
    have ha : (a != '%' && a != '_') = true :=
      (List.all_eq_true.mp hq) a (List.mem_cons_self a q)
    have ha1 : a ≠ '%' := by
      simp only [Bool.and_eq_true, bne_iff_ne, ne_eq] at ha
      exact ha.1
    have ha2 : a ≠ '_' := by
      simp only [Bool.and_eq_true, bne_iff_ne, ne_eq] at ha
      exact ha.2
    have hq2 : noWildcards q = true := by
      rw [noWildcards, List.all_eq_true]
      intro c hc
      exact (List.all_eq_true.mp hq) c (List.mem_cons_of_mem a hc)
    cases s with
    | nil =>
      simp only [List.cons_append, likeMatch, if_neg ha1, if_neg ha2]
      simp [lowerStr, startsWithStr]
    | cons c s2 =>
      simp only [List.cons_append, likeMatch, if_neg ha1, if_neg ha2]
      simp only [lowerStr, List.map_cons, startsWithStr]
      rw [Bool.and_eq_true, Bool.and_eq_true]
      constructor
      · rintro ⟨h1, h2⟩
        exact ⟨h1, ((ih hq2 s2).mp h2)⟩
      · rintro ⟨h1, h2⟩
        exact ⟨h1, ((ih hq2 s2).mpr h2)⟩

theorem subStr_iff (q : Str) :
    ∀ s : Str, subStr q s = true ↔ ∃ t, t <:+ s ∧ startsWithStr q t = true := by
  intro s
  induction s with
  | nil =>
    simp only [subStr]
    constructor
    · intro h
      exact ⟨[], List.nil_suffix, by rwa [startsWithStr_nil]⟩
    · rintro ⟨t, ht, hp⟩
      rw [List.suffix_nil.mp ht] at hp
      rwa [startsWithStr_nil] at hp
  | cons c rest ih =>
    simp only [subStr, Bool.or_eq_true]
    constructor
    · rintro (h | h)
      · exact ⟨c :: rest, List.suffix_refl _, h⟩
      · rcases ih.mp h with ⟨t, ht, hp⟩
        exact ⟨t, ht.trans (List.suffix_cons c rest), hp⟩
    · rintro ⟨t, ht, hp⟩
      rcases List.suffix_cons_iff.mp ht with rfl | ht2
      · exact Or.inl hp
      · exact Or.inr (ih.mpr ⟨t, ht2, hp⟩)

theorem suffix_lowerStr (s : Str) (t : Str) :
    (∃ u, u <:+ s ∧ lowerStr u = t) ↔ t <:+ lowerStr s := by
  constructor
  · rintro ⟨u, hu, rfl⟩
    exact hu.map Char.toLower
  · intro ht
    rcases ht with ⟨pre, hpre⟩
    refine ⟨s.drop (s.length - t.length), List.drop_suffix _ _, ?_⟩
    have hlen : t.length ≤ s.length := by
      have := congrArg List.length hpre
      simp [lowerStr] at this ⊢
      omega
    have : lowerStr (s.drop (s.length - t.length)) = (lowerStr s).drop (s.length - t.length) := by
      simp [lowerStr, List.map_drop]
    rw [this]
    have hlens : (lowerStr s).length = s.length := by simp [lowerStr]
    rw [← hpre]
    have hplen : pre.length = s.length - t.length := by
      have := congrArg List.length hpre
      simp [lowerStr] at this
      omega
    rw [List.drop_append_eq_append_drop]
    rw [List.drop_eq_nil_of_le (by omega)]
    have hz : s.length - t.length - pre.length = 0 := by omega
    rw [hz, List.drop_zero, List.nil_append]

theorem likeMatch_eq_ciContains (q : Str) (hq : noWildcards q = true) (s : Str) :
    likeMatch ([ '%' ] ++ q ++ [ '%' ]) s = ciContains q s := by
  have hshape : [ '%' ] ++ q ++ [ '%' ] = '%' :: (q ++ [ '%' ]) := by simp
  rw [hshape]
  rw [Bool.eq_iff_iff]
  rw [likeMatch_percent]
  unfold ciContains
  rw [subStr_iff]
  constructor
  · rintro ⟨t, ht, hm⟩
    refine ⟨lowerStr t, (suffix_lowerStr s (lowerStr t)).mp ⟨t, ht, rfl⟩, ?_⟩
    exact (likeMatch_plain_percent q hq t).mp hm
  · rintro ⟨t, ht, hm⟩
    rcases (suffix_lowerStr s t).mpr ht with ⟨u, hu, rfl⟩
    exact ⟨u, hu, (likeMatch_plain_percent q hq u).mpr hm⟩

/- ------------------------------------------------------------------ -/
/- split(", ") inverts the comma-space join (claim C3)                 -/
/- ------------------------------------------------------------------ -/

theorem hasCS_cons (c : Char) (n : Str) (h : hasCS (c :: n) = false) : hasCS n = false := by
  cases n with
  | nil => rfl
  | cons d rest =>
    simp only [hasCS, Bool.or_eq_false_iff] at h
    exact h.2

theorem splitOnCSGo_no_sep (n : Str) (hn : hasCS n = false) :
    ∀ acc : Str, splitOnCSGo n acc = [acc.reverse ++ n] := by
  induction n with
  | nil => intro acc; simp [splitOnCSGo]
  | cons c n2 ih =>
    intro acc
    cases n2 with
    | nil => simp [splitOnCSGo]
    | cons d rest =>
      have hcd : ¬ (c = ',' ∧ d = ' ') := by
        simp only [hasCS, Bool.or_eq_false_iff] at hn
        intro hx
        rcases hn with ⟨h1, -⟩
        rcases hx with ⟨rfl, rfl⟩
        simp at h1
      rw [splitOnCSGo, if_neg hcd]
      rw [ih (hasCS_cons c (d :: rest) hn) (c :: acc)]
      simp

theorem splitOnCSGo_boundary (n : Str) (hn : hasCS n = false) :
    ∀ (acc rest : Str),
      splitOnCSGo (n ++ ',' :: ' ' :: rest) acc = (acc.reverse ++ n) :: splitOnCSGo rest [] := by
  induction n with
  | nil =>
    intro acc rest
    rw [List.nil_append, splitOnCSGo, if_pos ⟨rfl, rfl⟩]
    simp
  | cons c n2 ih =>
    intro acc rest
    cases n2 with
    | nil =>
      have hcd : ¬ (c = ',' ∧ (',' : Char) = ' ') := by
        rintro ⟨-, h⟩
        cases h
      rw [List.cons_append, List.nil_append, splitOnCSGo, if_neg hcd]
      rw [splitOnCSGo, if_pos ⟨rfl, rfl⟩]
      simp
    | cons d rest2 =>
      have hcd : ¬ (c = ',' ∧ d = ' ') := by
        simp only [hasCS, Bool.or_eq_false_iff] at hn
        intro hx
        rcases hn with ⟨h1, -⟩
        rcases hx with ⟨rfl, rfl⟩
        simp at h1
      rw [List.cons_append, List.cons_append, splitOnCSGo, if_neg hcd]
      rw [← List.cons_append]
      rw [ih (hasCS_cons c (d :: rest2) hn) (c :: acc) rest]
      simp

theorem intercalateCS_cons (n m : Str) (rest : List Str) :
    List.intercalate commaSpace (n :: m :: rest)
      = n ++ ',' :: ' ' :: List.intercalate commaSpace (m :: rest) := by
  simp [List.intercalate, List.intersperse, commaSpace]

theorem splitOnCS_intercalate (names : List Str) (hne : names ≠ [])
    (h : ∀ n ∈ names, hasCS n = false) :
    splitOnCS (List.intercalate commaSpace names) = names := by
  induction names with
  | nil => cases hne rfl
  | cons n rest ih =>
    cases rest with
    | nil =>
      have : List.intercalate commaSpace [n] = n := by
        simp [List.intercalate, List.intersperse]
      rw [this, splitOnCS, splitOnCSGo_no_sep n (h n (List.mem_cons_self n [])) []]
      simp
    | cons m rest2 =>
      rw [intercalateCS_cons, splitOnCS,
        splitOnCSGo_boundary n (h n (List.mem_cons_self n (m :: rest2))) [] _]
      rw [List.reverse_nil, List.nil_append]
      have hrest : ∀ x ∈ m :: rest2, hasCS x = false := by
        intro x hx
        exact h x (List.mem_cons_of_mem n hx)
      rw [show splitOnCSGo (List.intercalate commaSpace (m :: rest2)) [] =
          splitOnCS (List.intercalate commaSpace (m :: rest2)) from rfl]
      rw [ih (by simp) hrest]

theorem intercalate_ne_nil (n : Str) (rest : List Str) (hn : n ≠ []) :
    List.intercalate commaSpace (n :: rest) ≠ [] := by
  cases rest with
  | nil =>
    simpa [List.intercalate, List.intersperse] using hn
  | cons m rest2 =>
    rw [intercalateCS_cons]
    intro hx
    rcases List.append_eq_nil.mp hx with ⟨-, h2⟩
    cases h2

/- ------------------------------------------------------------------ -/
/- Generic key-filter and find? helpers                                -/
/- ------------------------------------------------------------------ -/

theorem filter_key_filter_ne {α : Type} (key : α → Nat) (l : List α) (sid oid : Nat)
    (hne : oid ≠ sid) :
    (l.filter (fun a => key a != sid)).filter (fun a => key a == oid)
      = l.filter (fun a => key a == oid) := by
  induction l with
  | nil => rfl
  | cons a l ih =>
    by_cases h : key a = oid
    · rw [List.filter_cons_of_pos (by simp [h, hne]),
        List.filter_cons_of_pos (by simp [h]),
        List.filter_cons_of_pos (by simp [h]), ih]
    · by_cases h3 : key a = sid
      · rw [List.filter_cons_of_neg (by simp [h3]),
          List.filter_cons_of_neg (by simp [h]), ih]
      · rw [List.filter_cons_of_pos (by simp [h3]),
          List.filter_cons_of_neg (by simp [h]),
          List.filter_cons_of_neg (by simp [h]), ih]

theorem filter_key_filter_self {α : Type} (key : α → Nat) (l : List α) (sid : Nat) :
    (l.filter (fun a => key a != sid)).filter (fun a => key a == sid) = [] := by
  induction l with
  | nil => rfl
  | cons a l ih =>
    by_cases h : key a = sid
    · rw [List.filter_cons_of_neg (by simp [h]), ih]
    · rw [List.filter_cons_of_pos (by simp [h]),
        List.filter_cons_of_neg (by simp [h]), ih]

theorem filter_key_append {α : Type} (key : α → Nat) (l dl : List α) (sid oid : Nat)
    (hne : oid ≠ sid) (hdl : ∀ a ∈ dl, key a = sid) :
    ((l ++ dl).filter (fun a => key a == oid)) = l.filter (fun a => key a == oid) := by
  rw [List.filter_append]
  have : dl.filter (fun a => key a == oid) = [] := by
    rw [List.filter_eq_nil_iff]
    intro a ha
    simp [hdl a ha, hne.symm]
  rw [this, List.append_nil]

theorem filter_key_map_self {α β : Type} (key : α → Nat) (keyb : β → Nat) (f : α → β)
    (l : List α) (sid : Nat) (hf : ∀ a, keyb (f a) = key a) (hl : ∀ a ∈ l, key a = sid) :
    (l.map f).filter (fun b => keyb b == sid) = l.map f := by
  rw [List.filter_eq_self]
  intro b hb
  rcases List.mem_map.mp hb with ⟨a, ha, rfl⟩
  simp [hf, hl a ha]

theorem filter_key_map_ne {α β : Type} (key : α → Nat) (keyb : β → Nat) (f : α → β)
    (l : List α) (sid oid : Nat) (hne : oid ≠ sid) (hf : ∀ a, keyb (f a) = key a)
    (hl : ∀ a ∈ l, key a = sid) :
    (l.map f).filter (fun b => keyb b == oid) = [] := by
  rw [List.filter_eq_nil_iff]
  intro b hb
  rcases List.mem_map.mp hb with ⟨a, ha, rfl⟩
  simp [hf, hl a ha, hne.symm]

theorem find?_key_nodup {α : Type} (key : α → Nat) (l : List α)
    (h : (l.map key).Nodup) (a : α) (ha : a ∈ l) :
    l.find? (fun x => key x == key a) = some a := by
  induction l with
  | nil => cases ha
  | cons b l ih =>
    rcases List.mem_cons.mp ha with rfl | ha2
    · rw [List.find?_cons_of_pos _ (by simp)]
    · rw [List.map_cons, List.nodup_cons] at h
      have hkb : key b ≠ key a := by
        intro hx
        exact h.1 (hx ▸ List.mem_map_of_mem key ha2)
      rw [List.find?_cons_of_neg _ (by simpa using hkb)]
      exact ih h.2 ha2

theorem find?_key_eq_none {α : Type} (key : α → Nat) (l : List α) (k : Nat)
    (h : ∀ a ∈ l, key a ≠ k) : l.find? (fun x => key x == k) = none := by
  rw [List.find?_eq_none]
  intro a ha
  simpa using h a ha

/- ------------------------------------------------------------------ -/
/- ensureTag and tag-name lookup                                       -/
/- ------------------------------------------------------------------ -/

theorem find?_append_none {α : Type} (l1 l2 : List α) (p : α → Bool)
    (h : l1.find? p = none) : (l1 ++ l2).find? p = l2.find? p := by
  induction l1 with
  | nil => rfl
  | cons a l ih =>
    rw [List.cons_append]
    cases hx : p a with
    | false =>
      rw [List.find?_cons_of_neg _ (by simp [hx])] at h
      rw [List.find?_cons_of_neg _ (by simp [hx])]
      exact ih h
    | true =>
      rw [List.find?_cons_of_pos _ hx] at h
      cases h

theorem find?_append_some {α : Type} (l1 l2 : List α) (p : α → Bool) (a : α)
    (h : l1.find? p = some a) : (l1 ++ l2).find? p = some a := by
  induction l1 with
  | nil => cases h
  | cons b l ih =>
    rw [List.cons_append]
    cases hx : p b with
    | false =>
      rw [List.find?_cons_of_neg _ (by simp [hx])] at h
      rw [List.find?_cons_of_neg _ (by simp [hx])]
      exact ih h
    | true =>
      rw [List.find?_cons_of_pos _ hx] at h
      rw [List.find?_cons_of_pos _ hx]
      exact h

/-- Frame facts about `ensureTag`: it touches only the tag table, appending at
most one fresh row. -/
theorem ensureTag_frame (s : DBState) (name : Str) :
    (ensureTag s name).1.snippets = s.snippets ∧
    (ensureTag s name).1.snippet_tags = s.snippet_tags ∧
    (ensureTag s name).1.fts = s.fts ∧
    (ensureTag s name).1.nextSnippetId = s.nextSnippetId ∧
    (ensureTag s name).1.clock = s.clock ∧
    s.nextTagId ≤ (ensureTag s name).1.nextTagId ∧
    (∃ dt, (ensureTag s name).1.tags = s.tags ++ dt) := by
  unfold ensureTag
  cases h : s.tags.find? (fun t => t.name == name) with
  | none =>
    refine ⟨rfl, rfl, rfl, rfl, rfl, Nat.le_succ _, ?_⟩
    exact ⟨[⟨s.nextTagId, name⟩], rfl⟩
  | some t =>
    refine ⟨rfl, rfl, rfl, rfl, rfl, Nat.le_refl _, ?_⟩
    exact ⟨[], by simp⟩

theorem ensureTag_wftags (s : DBState) (name : Str) (hwf : WFtags s) :
    WFtags (ensureTag s name).1 := by
  rcases hwf with ⟨hids, hnames, hbound⟩
  unfold WFtags
  unfold ensureTag
  cases h : s.tags.find? (fun t => t.name == name) with
  | none =>
    refine ⟨?_, ?_, ?_⟩
    · simp only [List.map_append, List.map_cons, List.map_nil]
      rw [List.nodup_append]
      refine ⟨hids, List.nodup_singleton _, ?_⟩
      intro a ha hb
      rcases List.mem_singleton.mp hb with rfl
      rcases List.mem_map.mp ha with ⟨t, ht, hta⟩
      exact Nat.ne_of_lt (hbound t ht) hta
    · simp only [List.map_append, List.map_cons, List.map_nil]
      rw [List.nodup_append]
      refine ⟨hnames, List.nodup_singleton _, ?_⟩
      intro a ha hb
      rcases List.mem_singleton.mp hb with rfl
      rcases List.mem_map.mp ha with ⟨t, ht, hta⟩
      have := List.find?_eq_none.mp h t ht
      simp [hta] at this
    · intro t ht
      rcases List.mem_append.mp ht with ht2 | ht2
      · exact Nat.lt_succ_of_lt (hbound t ht2)
      · rcases List.mem_singleton.mp ht2 with rfl
        exact Nat.lt_succ_self _
  | some t => exact And.intro hids (And.intro hnames hbound)

theorem ensureTag_lookup (s : DBState) (name : Str) (hwf : WFtags s) :
    lookupTagName (ensureTag s name).1 (ensureTag s name).2 = some name := by
  rcases hwf with ⟨hids, hnames, hbound⟩
  unfold ensureTag
  cases h : s.tags.find? (fun t => t.name == name) with
  | none =>
    show ((s.tags ++ [(⟨s.nextTagId, name⟩ : TagRow)]).find?
      (fun x => TagRow.id x == s.nextTagId)).map TagRow.name = some name
    rw [find?_append_none _ _ _ (find?_key_eq_none TagRow.id s.tags s.nextTagId
      (fun t ht => Nat.ne_of_lt (hbound t ht)))]
    rw [List.find?_cons_of_pos _ (by simp)]
    rfl
  | some t =>
    have hmem : t ∈ s.tags := List.mem_of_find?_eq_some h
    have hname : t.name = name := by
      have := List.find?_some h
      simpa using this
    show (s.tags.find? (fun x => TagRow.id x == TagRow.id t)).map TagRow.name = some name
    rw [find?_key_nodup TagRow.id s.tags hids t hmem]
    simpa using hname

/-- If the returned tag id already occurs in a link, its name is `name`
(used to show that `INSERT OR IGNORE` skips exactly when the name is
already linked). -/
theorem ensureTag_linked_name (s : DBState) (name : Str) (sid : Nat)
    (hwf : WFtags s) (hlk : ∀ p ∈ s.snippet_tags, ∃ t ∈ s.tags, t.id = p.2)
    (hmem : (sid, (ensureTag s name).2) ∈ s.snippet_tags) :
    lookupTagName s (ensureTag s name).2 = some name := by
  rcases hwf with ⟨hids, hnames, hbound⟩
  revert hmem
  unfold ensureTag
  cases h : s.tags.find? (fun t => t.name == name) with
  | none =>
    intro hmem
    rcases hlk _ hmem with ⟨t, ht, hid⟩
    have hid2 : t.id = s.nextTagId := hid
    exact absurd hid2 (Nat.ne_of_lt (hbound t ht))
  | some t =>
    intro hmem
    have hmem2 : t ∈ s.tags := List.mem_of_find?_eq_some h
    have hname : t.name = name := by
      have := List.find?_some h
      simpa using this
    show (s.tags.find? (fun x => TagRow.id x == TagRow.id t)).map TagRow.name = some name
    rw [find?_key_nodup TagRow.id s.tags hids t hmem2]
    simpa using hname

/-- Lookups of tag ids that exist in `sA` are unchanged in any state whose tag
table extends `sA`'s. -/
theorem lookup_stable (sA sB : DBState) (dt : List TagRow) (htags : sB.tags = sA.tags ++ dt)
    (tid : Nat) (hrow : ∃ t ∈ sA.tags, t.id = tid) :
    lookupTagName sB tid = lookupTagName sA tid := by
  rcases hrow with ⟨t, ht, rfl⟩
  unfold lookupTagName
  rw [htags]
  cases h : sA.tags.find? (fun x => x.id == t.id) with
  | none =>
    have := List.find?_eq_none.mp h t ht
    simp at this
  | some u => rw [find?_append_some _ _ _ _ h]

/-- The tag names linked to `oid` depend only on `oid`'s links and on the
lookups of their tag ids. -/
theorem tagNamesOf_congr (oid : Nat) (sA sB : DBState)
    (hl : sB.snippet_tags.filter (fun p => p.1 == oid)
        = sA.snippet_tags.filter (fun p => p.1 == oid))
    (htags : ∃ dt, sB.tags = sA.tags ++ dt)
    (hwf : ∀ p ∈ sA.snippet_tags, ∃ t ∈ sA.tags, t.id = p.2) :
    tagNamesOf sB oid = tagNamesOf sA oid := by
  rcases htags with ⟨dt, htags⟩
  unfold tagNamesOf
  rw [hl]
  apply List.filterMap_congr
  intro tid htid
  rcases List.mem_map.mp htid with ⟨p, hp, rfl⟩
  have hpA : p ∈ sA.snippet_tags := List.mem_of_mem_filter hp
  exact lookup_stable sA sB dt htags p.2 (hwf p hpA)

/- ------------------------------------------------------------------ -/
/- The tag-link loops of add_snippet and update_snippet                -/
/- ------------------------------------------------------------------ -/

theorem LinkStep.refl (sid : Nat) (s : DBState) : LinkStep sid s s :=
  ⟨rfl, rfl, rfl, rfl, Nat.le_refl _, ⟨[], by simp⟩, ⟨[], by simp, by intro p hp; cases hp⟩,
   id, id⟩

theorem LinkStep.trans {sid : Nat} {s1 s2 s3 : DBState}
    (h12 : LinkStep sid s1 s2) (h23 : LinkStep sid s2 s3) : LinkStep sid s1 s3 := by
  obtain ⟨a1, b1, c1, d1, e1, ⟨dt1, f1⟩, ⟨dl1, g1, g1x⟩, w1, x1⟩ := h12
  obtain ⟨a2, b2, c2, d2, e2, ⟨dt2, f2⟩, ⟨dl2, g2, g2x⟩, w2, x2⟩ := h23
  refine ⟨a2.trans a1, b2.trans b1, c2.trans c1, d2.trans d1, e1.trans e2,
    ⟨dt1 ++ dt2, by rw [f2, f1, List.append_assoc]⟩,
    ⟨dl1 ++ dl2, by rw [g2, g1, List.append_assoc], ?_⟩,
    fun h => w2 (w1 h), fun h => x2 (x1 h)⟩
  intro p hp
  rcases List.mem_append.mp hp with h | h
  · exact g1x p h
  · exact g2x p h

theorem addTagLink_step (sid : Nat) (s : DBState) (raw : Str) :
    LinkStep sid s (addTagLink sid s raw) := by
  unfold addTagLink
  by_cases hblank : (normTag raw).isEmpty
  · rw [if_pos hblank]
    exact LinkStep.refl sid s
  · rw [if_neg hblank]
    obtain ⟨h1, h2, h3, h4, h5, h6, ⟨dt, h7⟩⟩ := ensureTag_frame s (normTag raw)
    by_cases hmem : (sid, (ensureTag s (normTag raw)).2) ∈ (ensureTag s (normTag raw)).1.snippet_tags
    · rw [if_pos hmem]
      refine ⟨h1, h3, h4, h5, h6, ⟨dt, h7⟩, ⟨[], by simp [h2], by intro p hp; cases hp⟩,
        fun h => ensureTag_wftags s (normTag raw) h, ?_⟩
      intro h p hp
      rw [h2] at hp
      rcases h p hp with ⟨t, ht, hid⟩
      exact ⟨t, by rw [h7]; exact List.mem_append_left dt ht, hid⟩
    · rw [if_neg hmem]
      refine ⟨h1, h3, h4, h5, h6, ⟨dt, h7⟩,
        ⟨[(sid, (ensureTag s (normTag raw)).2)], by rw [h2], ?_⟩,
        fun h => ensureTag_wftags s (normTag raw) h, ?_⟩
      · intro p hp
        rcases List.mem_singleton.mp hp with rfl
        rfl
      · intro h p hp
        simp only [List.mem_append] at hp
        rcases hp with hp | hp
        · rw [h2] at hp
          rcases h p hp with ⟨t, ht, hid⟩
          exact ⟨t, by rw [h7]; exact List.mem_append_left dt ht, hid⟩
        · rcases List.mem_singleton.mp hp with rfl
          have hl := ensureTag_lookup s (normTag raw)
          unfold lookupTagName at hl
          rcases hfind : (ensureTag s (normTag raw)).1.tags.find?
              (fun t => t.id == (ensureTag s (normTag raw)).2) with _ | t
          · exfalso
            cases hx : s.tags.find? (fun t => t.name == normTag raw) with
            | none =>
              have hta : (ensureTag s (normTag raw)).1.tags
                  = s.tags ++ [⟨s.nextTagId, normTag raw⟩] := by
                unfold ensureTag
                rw [hx]
              have hmem2 : (⟨s.nextTagId, normTag raw⟩ : TagRow)
                  ∈ (ensureTag s (normTag raw)).1.tags := by
                rw [hta]
                exact List.mem_append_right _ (List.mem_singleton.mpr rfl)
              have hid : (ensureTag s (normTag raw)).2 = s.nextTagId := by
                unfold ensureTag
                rw [hx]
              have := List.find?_eq_none.mp hfind _ hmem2
              rw [hid] at this
              simp at this
            | some t =>
              have htags : (ensureTag s (normTag raw)).1.tags = s.tags := by
                unfold ensureTag
                rw [hx]
              have hid : (ensureTag s (normTag raw)).2 = t.id := by
                unfold ensureTag
                rw [hx]
              have hmem2 : t ∈ (ensureTag s (normTag raw)).1.tags := by
                rw [htags]
                exact List.mem_of_find?_eq_some hx
              have := List.find?_eq_none.mp hfind _ hmem2
              rw [hid] at this
              simp at this
          · have ht := List.mem_of_find?_eq_some hfind
            have hid : t.id = (ensureTag s (normTag raw)).2 := by
              have := List.find?_some hfind
              simpa using this
            exact ⟨t, ht, hid⟩

theorem insertLinks_nil (sid : Nat) (s : DBState) :
    insertLinks sid s [] = Except.ok s := rfl

theorem insertLinks_cons (sid : Nat) (s : DBState) (raw : Str) (rest : List Str) :
    insertLinks sid s (raw :: rest)
      = if (normTag raw).isEmpty then insertLinks sid s rest
        else if (sid, (ensureTag s (normTag raw)).2)
            ∈ (ensureTag s (normTag raw)).1.snippet_tags
          then Except.error uniqueViolation
        else insertLinks sid
          { (ensureTag s (normTag raw)).1 with
              snippet_tags := (ensureTag s (normTag raw)).1.snippet_tags
                ++ [(sid, (ensureTag s (normTag raw)).2)] } rest := rfl

/-- When the loop of plain link `INSERT`s completes without hitting the
uniqueness constraint, it produces exactly the state the insert-or-ignore
loop of `add_snippet` would: every insert it performed took the
not-yet-present branch, where the two loops agree. -/
theorem insertLinks_ok_eq_foldl (sid : Nat) :
    ∀ (ts : List Str) (s s2 : DBState), insertLinks sid s ts = Except.ok s2 →
      s2 = ts.foldl (addTagLink sid) s := by
  intro ts
  induction ts with
  | nil =>
    intro s s2 h
    rw [insertLinks_nil] at h
    cases h
    rfl
  | cons raw rest ih =>
    intro s s2 h
    rw [insertLinks_cons] at h
    rw [List.foldl_cons]
    by_cases hblank : (normTag raw).isEmpty
    · rw [if_pos hblank] at h
      have haddl : addTagLink sid s raw = s := by
        unfold addTagLink
        rw [if_pos hblank]
      rw [haddl]
      exact ih s s2 h
    · rw [if_neg hblank] at h
      by_cases hmem : (sid, (ensureTag s (normTag raw)).2)
          ∈ (ensureTag s (normTag raw)).1.snippet_tags
      · rw [if_pos hmem] at h
        cases h
      · rw [if_neg hmem] at h
        have haddl : addTagLink sid s raw
            = { (ensureTag s (normTag raw)).1 with
                  snippet_tags := (ensureTag s (normTag raw)).1.snippet_tags
                    ++ [(sid, (ensureTag s (normTag raw)).2)] } := by
          unfold addTagLink
          rw [if_neg hblank, if_neg hmem]
        rw [haddl]
        exact ih _ s2 h

/-- The only engine error the link loop raises is the uniqueness violation. -/
theorem insertLinks_error_name (sid : Nat) :
    ∀ (ts : List Str) (s : DBState) (e : Str), insertLinks sid s ts = Except.error e →
      e = uniqueViolation := by
  intro ts
  induction ts with
  | nil =>
    intro s e h
    rw [insertLinks_nil] at h
    cases h
  | cons raw rest ih =>
    intro s e h
    rw [insertLinks_cons] at h
    by_cases hblank : (normTag raw).isEmpty
    · rw [if_pos hblank] at h
      exact ih s e h
    · rw [if_neg hblank] at h
      by_cases hmem : (sid, (ensureTag s (normTag raw)).2)
          ∈ (ensureTag s (normTag raw)).1.snippet_tags
      · rw [if_pos hmem] at h
        cases h
        rfl
      · rw [if_neg hmem] at h
        exact ih _ e h

theorem foldl_LinkStep (sid : Nat) (f : DBState → Str → DBState)
    (hf : ∀ s raw, LinkStep sid s (f s raw)) :
    ∀ (ts : List Str) (s : DBState), LinkStep sid s (ts.foldl f s) := by
  intro ts
  induction ts with
  | nil => intro s; exact LinkStep.refl sid s
  | cons raw rest ih =>
    intro s
    rw [List.foldl_cons]
    exact (hf s raw).trans (ih (f s raw))

theorem lookupTagName_congr (sA sB : DBState) (h : sB.tags = sA.tags) :
    lookupTagName sB = lookupTagName sA := by
  unfold lookupTagName
  rw [h]

theorem tagNamesOf_append_link (sB s2 : DBState) (sid tid : Nat)
    (h : s2.snippet_tags = sB.snippet_tags ++ [(sid, tid)])
    (htags : s2.tags = sB.tags) :
    tagNamesOf s2 sid = tagNamesOf sB sid ++ (lookupTagName sB tid).toList := by
  unfold tagNamesOf
  rw [h, List.filter_append, List.map_append, List.filterMap_append,
    lookupTagName_congr sB s2 htags]
  congr 1
  rw [List.filter_cons_of_pos (by simp), List.filter_nil]
  rw [List.map_cons, List.map_nil]
  cases hx : lookupTagName sB tid <;> simp [List.filterMap, hx]

/-- `name ∈ tagNamesOf s sid` holds as soon as some link of `sid` resolves to
`name`. -/
theorem tagNamesOf_of_link (s : DBState) (sid tid : Nat) (name : Str)
    (hmem : (sid, tid) ∈ s.snippet_tags) (hlk : lookupTagName s tid = some name) :
    name ∈ tagNamesOf s sid := by
  unfold tagNamesOf
  rw [List.mem_filterMap]
  refine ⟨tid, ?_, hlk⟩
  rw [List.mem_map]
  exact ⟨(sid, tid), List.mem_filter.mpr ⟨hmem, by simp⟩, rfl⟩

theorem addTagLink_names (sid : Nat) (s : DBState) (raw : Str)
    (hwft : WFtags s) (hlt : LinksTagWF s) :
    ∀ x, x ∈ tagNamesOf (addTagLink sid s raw) sid
      ↔ (x ∈ tagNamesOf s sid ∨ ((normTag raw).isEmpty = false ∧ x = normTag raw)) := by
  intro x
  unfold addTagLink
  by_cases hblank : (normTag raw).isEmpty
  · rw [if_pos hblank]
    simp [hblank]
  · rw [if_neg hblank]
    obtain ⟨h1, h2, h3, h4, h5, h6, ⟨dt, h7⟩⟩ := ensureTag_frame s (normTag raw)
    have hcongr : tagNamesOf (ensureTag s (normTag raw)).1 sid = tagNamesOf s sid :=
      tagNamesOf_congr sid s _ (by rw [h2]) ⟨dt, h7⟩ hlt
    have hlkup := ensureTag_lookup s (normTag raw) hwft
    by_cases hmem : (sid, (ensureTag s (normTag raw)).2)
        ∈ (ensureTag s (normTag raw)).1.snippet_tags
    · rw [if_pos hmem]
      rw [hcongr]
      have hmemS : (sid, (ensureTag s (normTag raw)).2) ∈ s.snippet_tags := by
        rw [← h2]; exact hmem
      have hnm : normTag raw ∈ tagNamesOf s sid :=
        tagNamesOf_of_link s sid _ _ hmemS
          (ensureTag_linked_name s (normTag raw) sid hwft hlt hmemS)
      constructor
      · exact Or.inl
      · rintro (h | ⟨-, rfl⟩)
        · exact h
        · exact hnm
    · rw [if_neg hmem]
      have happ := tagNamesOf_append_link (ensureTag s (normTag raw)).1
        { (ensureTag s (normTag raw)).1 with
            snippet_tags := (ensureTag s (normTag raw)).1.snippet_tags
              ++ [(sid, (ensureTag s (normTag raw)).2)] }
        sid (ensureTag s (normTag raw)).2 rfl rfl
      rw [happ, hcongr, hlkup]
      simp only [Option.toList_some, List.mem_append, List.mem_singleton]
      constructor
      · rintro (h | rfl)
        · exact Or.inl h
        · exact Or.inr ⟨by simpa using hblank, rfl⟩
      · rintro (h | ⟨-, rfl⟩)
        · exact Or.inl h
        · exact Or.inr rfl

theorem normFilter_nil : normFilter [] = [] := rfl

theorem normFilter_cons (r : Str) (ts : List Str) :
    normFilter (r :: ts)
      = (if (normTag r).isEmpty then [] else [normTag r]) ++ normFilter ts := by
  unfold normFilter
  rw [List.map_cons]
  by_cases h : (normTag r).isEmpty
  · rw [List.filter_cons_of_neg (by simp [h]), if_pos h, List.nil_append]
  · rw [List.filter_cons_of_pos (by simp [h]), if_neg h, List.singleton_append]

theorem mem_normFilter_cons (x : Str) (r : Str) (ts : List Str) :
    x ∈ normFilter (r :: ts)
      ↔ (((normTag r).isEmpty = false ∧ x = normTag r) ∨ x ∈ normFilter ts) := by
  rw [normFilter_cons, List.mem_append]
  by_cases h : (normTag r).isEmpty
  · rw [if_pos h]
    constructor
    · rintro (hx | hx)
      · exact absurd hx (List.not_mem_nil x)
      · exact Or.inr hx
    · rintro (⟨hf, -⟩ | hx)
      · rw [h] at hf
        cases hf
      · exact Or.inr hx
  · rw [if_neg h]
    constructor
    · rintro (hx | hx)
      · rcases List.mem_singleton.mp hx with rfl
        exact Or.inl ⟨by simpa using h, rfl⟩
      · exact Or.inr hx
    · rintro (⟨-, rfl⟩ | hx)
      · exact Or.inl (List.mem_singleton.mpr rfl)
      · exact Or.inr hx

theorem foldl_link_names (sid : Nat) (f : DBState → Str → DBState)
    (hstep : ∀ s raw, LinkStep sid s (f s raw))
    (hnames : ∀ s raw, WFtags s → LinksTagWF s →
      ∀ x, x ∈ tagNamesOf (f s raw) sid
        ↔ (x ∈ tagNamesOf s sid ∨ ((normTag raw).isEmpty = false ∧ x = normTag raw))) :
    ∀ (ts : List Str) (s : DBState), WFtags s → LinksTagWF s →
      ∀ x, x ∈ tagNamesOf (ts.foldl f s) sid
        ↔ (x ∈ tagNamesOf s sid ∨ x ∈ normFilter ts) := by
  intro ts
  induction ts with
  | nil =>
    intro s hwft hlt x
    simp [normFilter_nil]
  | cons raw rest ih =>
    intro s hwft hlt x
    rw [List.foldl_cons]
    obtain ⟨-, -, -, -, -, -, -, hw, hl⟩ := hstep s raw
    rw [ih (f s raw) (hw hwft) (hl hlt) x, hnames s raw hwft hlt x,
      mem_normFilter_cons]
    tauto

theorem addTagLink_nodup (sid : Nat) (s : DBState) (raw : Str)
    (h : s.snippet_tags.Nodup) : (addTagLink sid s raw).snippet_tags.Nodup := by
  unfold addTagLink
  by_cases hblank : (normTag raw).isEmpty
  · rw [if_pos hblank]; exact h
  · rw [if_neg hblank]
    obtain ⟨-, h2, -, -, -, -, -⟩ := ensureTag_frame s (normTag raw)
    by_cases hmem : (sid, (ensureTag s (normTag raw)).2)
        ∈ (ensureTag s (normTag raw)).1.snippet_tags
    · rw [if_pos hmem]
      rw [h2]; exact h
    · rw [if_neg hmem]
      show ((ensureTag s (normTag raw)).1.snippet_tags
        ++ [(sid, (ensureTag s (normTag raw)).2)]).Nodup
      rw [List.nodup_append]
      refine ⟨by rw [h2]; exact h, List.nodup_singleton _, ?_⟩
      intro a ha hb
      rcases List.mem_singleton.mp hb with rfl
      exact hmem ha

theorem foldl_addTagLink_nodup (sid : Nat) (ts : List Str) :
    ∀ s : DBState, s.snippet_tags.Nodup →
      ((ts.foldl (addTagLink sid) s)).snippet_tags.Nodup := by
  induction ts with
  | nil => intro s h; exact h
  | cons raw rest ih =>
    intro s h
    rw [List.foldl_cons]
    exact ih _ (addTagLink_nodup sid s raw h)

/-- If some name in the remaining tag list resolves to a tag row whose link
with `sid` is already present, the loop of plain link `INSERT`s raises the
uniqueness violation; the first matching row is stable because the tag table
only grows. -/
theorem insertLinks_error_of_present (sid : Nat) :
    ∀ (ts : List Str) (s : DBState) (t : TagRow) (n : Str),
      s.tags.find? (fun x => x.name == n) = some t →
      (sid, t.id) ∈ s.snippet_tags →
      n ∈ normFilter ts →
      insertLinks sid s ts = Except.error uniqueViolation := by
  intro ts
  induction ts with
  | nil =>
    intro s t n _ _ hn
    rw [normFilter_nil] at hn
    cases hn
  | cons raw rest ih =>
    intro s t n hfind hmem hn
    rw [insertLinks_cons]
    rw [mem_normFilter_cons] at hn
    by_cases hblank : (normTag raw).isEmpty
    · rw [if_pos hblank]
      rcases hn with ⟨hf, -⟩ | hn2
      · rw [hblank] at hf
        cases hf
      · exact ih s t n hfind hmem hn2
    · rw [if_neg hblank]
      obtain ⟨-, h2, -, -, -, -, ⟨dt, h7⟩⟩ := ensureTag_frame s (normTag raw)
      by_cases hm2 : (sid, (ensureTag s (normTag raw)).2)
          ∈ (ensureTag s (normTag raw)).1.snippet_tags
      · rw [if_pos hm2]
      · rw [if_neg hm2]
        by_cases hname : n = normTag raw
        · exfalso
          apply hm2
          have hid : (ensureTag s (normTag raw)).2 = t.id := by
            unfold ensureTag
            rw [← hname, hfind]
          rw [h2, hid]
          exact hmem
        · have hn3 : n ∈ normFilter rest := by
            rcases hn with ⟨-, hx⟩ | hn2
            · exact absurd hx hname
            · exact hn2
          refine ih _ t n ?_ ?_ hn3
          · show ((ensureTag s (normTag raw)).1.tags).find? (fun x => x.name == n) = some t
            rw [h7]
            exact find?_append_some s.tags dt _ t hfind
          · show (sid, t.id) ∈ (ensureTag s (normTag raw)).1.snippet_tags
              ++ [(sid, (ensureTag s (normTag raw)).2)]
            rw [h2]
            exact List.mem_append_left _ hmem

/-- A duplicate in the normalized non-blank tag list always makes the loop of
plain link `INSERT`s raise the uniqueness violation: the first occurrence
links its tag id to `sid`, and the second occurrence resolves to the same id
because the tag table only grows. -/
theorem insertLinks_error_of_dup (sid : Nat) :
    ∀ (ts : List Str) (s : DBState), ¬ (normFilter ts).Nodup →
      insertLinks sid s ts = Except.error uniqueViolation := by
  intro ts
  induction ts with
  | nil =>
    intro s h
    exact absurd List.nodup_nil h
  | cons raw rest ih =>
    intro s hdup
    rw [insertLinks_cons]
    by_cases hblank : (normTag raw).isEmpty
    · rw [if_pos hblank]
      refine ih s ?_
      intro hnd
      apply hdup
      rw [normFilter_cons, if_pos hblank, List.nil_append]
      exact hnd
    · rw [if_neg hblank]
      by_cases hm2 : (sid, (ensureTag s (normTag raw)).2)
          ∈ (ensureTag s (normTag raw)).1.snippet_tags
      · rw [if_pos hm2]
      · rw [if_neg hm2]
        have hnfc : normFilter (raw :: rest) = normTag raw :: normFilter rest := by
          rw [normFilter_cons, if_neg hblank, List.singleton_append]
        by_cases hdr : (normFilter rest).Nodup
        · have hin : normTag raw ∈ normFilter rest := by
            by_contra hnin
            apply hdup
            rw [hnfc]
            exact List.nodup_cons.mpr ⟨hnin, hdr⟩
          cases hx : s.tags.find? (fun x => x.name == normTag raw) with
          | some t =>
            have hid : (ensureTag s (normTag raw)).2 = t.id := by
              unfold ensureTag
              rw [hx]
            have htags : (ensureTag s (normTag raw)).1.tags = s.tags := by
              unfold ensureTag
              rw [hx]
            refine insertLinks_error_of_present sid rest _ t (normTag raw) ?_ ?_ hin
            · show ((ensureTag s (normTag raw)).1.tags).find?
                (fun x => x.name == normTag raw) = some t
              rw [htags]
              exact hx
            · show (sid, t.id) ∈ (ensureTag s (normTag raw)).1.snippet_tags
                ++ [(sid, (ensureTag s (normTag raw)).2)]
              rw [hid]
              exact List.mem_append_right _ (List.mem_singleton.mpr rfl)
          | none =>
            have hid : (ensureTag s (normTag raw)).2 = s.nextTagId := by
              unfold ensureTag
              rw [hx]
            have htags : (ensureTag s (normTag raw)).1.tags
                = s.tags ++ [⟨s.nextTagId, normTag raw⟩] := by
              unfold ensureTag
              rw [hx]
            refine insertLinks_error_of_present sid rest _
              (⟨s.nextTagId, normTag raw⟩ : TagRow) (normTag raw) ?_ ?_ hin
            · show ((ensureTag s (normTag raw)).1.tags).find?
                (fun x => x.name == normTag raw)
                  = some (⟨s.nextTagId, normTag raw⟩ : TagRow)
              rw [htags]
              rw [find?_append_none _ _ _ hx]
              rw [List.find?_cons_of_pos _ (by simp)]
            · show (sid, (⟨s.nextTagId, normTag raw⟩ : TagRow).id)
                ∈ (ensureTag s (normTag raw)).1.snippet_tags
                  ++ [(sid, (ensureTag s (normTag raw)).2)]
              rw [hid]
              exact List.mem_append_right _ (List.mem_singleton.mpr rfl)
        · exact ih _ hdr

/-- With a duplicate-free normalized non-blank tag list, and no link of `sid`
already resolving to one of its names, every plain link `INSERT` finds its
pair absent and the loop completes without an engine error. -/
theorem insertLinks_ok_of_nodup (sid : Nat) :
    ∀ (ts : List Str) (s : DBState), WFtags s → LinksTagWF s →
      (normFilter ts).Nodup →
      (∀ p ∈ s.snippet_tags, p.1 = sid →
        ∀ x, lookupTagName s p.2 = some x → x ∉ normFilter ts) →
      ∃ s2, insertLinks sid s ts = Except.ok s2 := by
  intro ts
  induction ts with
  | nil =>
    intro s _ _ _ _
    exact ⟨s, rfl⟩
  | cons raw rest ih =>
    intro s hwft hlt hnf hguard
    rw [insertLinks_cons]
    by_cases hblank : (normTag raw).isEmpty
    · rw [if_pos hblank]
      refine ih s hwft hlt ?_ ?_
      · have := hnf
        rwa [normFilter_cons, if_pos hblank, List.nil_append] at this
      · intro p hp hps x hx
        have := hguard p hp hps x hx
        rw [mem_normFilter_cons] at this
        intro hmem
        exact this (Or.inr hmem)
    · rw [if_neg hblank]
      obtain ⟨e1, e2, e3, e4, e5, e6, ⟨dte, e7⟩⟩ := ensureTag_frame s (normTag raw)
      have hlkup := ensureTag_lookup s (normTag raw) hwft
      have hnfc : normFilter (raw :: rest) = normTag raw :: normFilter rest := by
        rw [normFilter_cons, if_neg hblank, List.singleton_append]
      rw [hnfc] at hnf hguard
      have hnotin : normTag raw ∉ normFilter rest := (List.nodup_cons.mp hnf).1
      have hnfrest : (normFilter rest).Nodup := (List.nodup_cons.mp hnf).2
      have hm2 : (sid, (ensureTag s (normTag raw)).2)
          ∉ (ensureTag s (normTag raw)).1.snippet_tags := by
        intro hmem
        rw [e2] at hmem
        have hname := ensureTag_linked_name s (normTag raw) sid hwft hlt hmem
        exact hguard _ hmem rfl (normTag raw) hname (List.mem_cons_self _ _)
      rw [if_neg hm2]
      have haddl : addTagLink sid s raw
          = { (ensureTag s (normTag raw)).1 with
                snippet_tags := (ensureTag s (normTag raw)).1.snippet_tags
                  ++ [(sid, (ensureTag s (normTag raw)).2)] } := by
        unfold addTagLink
        rw [if_neg hblank, if_neg hm2]
      obtain ⟨-, -, -, -, -, -, -, hw, hl⟩ := addTagLink_step sid s raw
      rw [haddl] at hw hl
      refine ih _ (hw hwft) (hl hlt) hnfrest ?_
      intro p hp hps x hx hmemr
      have hp2 : p ∈ (ensureTag s (normTag raw)).1.snippet_tags
          ++ [(sid, (ensureTag s (normTag raw)).2)] := hp
      have hx2 : lookupTagName (ensureTag s (normTag raw)).1 p.2 = some x := hx
      rcases List.mem_append.mp hp2 with hpo | hpn
      · rw [e2] at hpo
        rcases hlt p hpo with ⟨t, ht, htid⟩
        have hstab : lookupTagName (ensureTag s (normTag raw)).1 p.2
            = lookupTagName s p.2 :=
          lookup_stable s _ dte e7 p.2 ⟨t, ht, htid⟩
        rw [hstab] at hx2
        exact hguard p hpo hps x hx2 (List.mem_cons_of_mem _ hmemr)
      · rcases List.mem_singleton.mp hpn with rfl
        rw [hlkup] at hx2
        rcases Option.some_inj.mp hx2 with rfl
        exact hnotin hmemr

/- ------------------------------------------------------------------ -/
/- Index consistency through the write operations (claim C1)           -/
/- ------------------------------------------------------------------ -/

theorem projEntry_congr (sA sB : DBState) (r : Snippet)
    (hl : sB.snippet_tags.filter (fun p => p.1 == r.id)
        = sA.snippet_tags.filter (fun p => p.1 == r.id))
    (htags : ∃ dt, sB.tags = sA.tags ++ dt) (hwf : LinksTagWF sA) :
    projEntry sB r = projEntry sA r := by
  unfold projEntry
  rw [tagNamesOf_congr r.id sA sB hl htags hwf]

theorem projEntry_syncFts (s : DBState) (sid : Nat) (r : Snippet) :
    projEntry (syncFts s sid) r = projEntry s r := rfl

theorem syncFts_consistent_at (s : DBState) (sid : Nat)
    (hother : ∀ id, id ≠ sid → s.fts.filter (fun e => e.content_id == id)
        = (s.snippets.filter (fun r => r.id == id)).map (projEntry s)) :
    ftsConsistent (syncFts s sid) := by
  intro id
  show ((s.fts.filter (fun e => e.content_id != sid)
      ++ (s.snippets.filter (fun r => r.id == sid)).map (projEntry s)).filter
        (fun e => e.content_id == id))
    = ((syncFts s sid).snippets.filter (fun r => r.id == id)).map (projEntry (syncFts s sid))
  have hsn : (syncFts s sid).snippets = s.snippets := rfl
  rw [hsn]
  have hproj : projEntry (syncFts s sid) = projEntry s := rfl
  rw [hproj]
  rw [List.filter_append]
  by_cases hid : id = sid
  · subst hid
    rw [filter_key_filter_self FtsEntry.content_id s.fts id]
    rw [List.nil_append]
    rw [filter_key_map_self Snippet.id FtsEntry.content_id (projEntry s) _ id
      (fun a => rfl) (fun a ha => by simpa using (List.mem_filter.mp ha).2)]
  · rw [filter_key_filter_ne FtsEntry.content_id s.fts sid id hid]
    rw [filter_key_map_ne Snippet.id FtsEntry.content_id (projEntry s) _ sid id hid
      (fun a => rfl) (fun a ha => by simpa using (List.mem_filter.mp ha).2)]
    rw [List.append_nil]
    exact hother id hid

theorem filter_map_update_ne (l : List Snippet) (sid oid : Nat) (hne : oid ≠ sid)
    (d c lang : Str) :
    ((l.map (fun r => if r.id == sid
        then { r with description := d, content := c, language := lang } else r)).filter
      (fun r => r.id == oid))
      = l.filter (fun r => r.id == oid) := by
  induction l with
  | nil => rfl
  | cons a l ih =>
    rw [List.map_cons]
    by_cases ha : a.id = sid
    · rw [if_pos (by simpa using ha)]
      rw [List.filter_cons_of_neg (by
        simp only [beq_iff_eq]
        show ¬ a.id = oid
        rw [ha]
        exact hne.symm)]
      rw [List.filter_cons_of_neg (by
        simp only [beq_iff_eq]
        rw [ha]
        exact hne.symm)]
      exact ih
    · rw [if_neg (by simpa using ha)]
      simp only [List.filter_cons, ih]

theorem add_snippet_preserves (s : DBState) (d c l : Str) (tags : List Str)
    (hwf : WFdb s) (hcons : ftsConsistent s) :
    WFdb (add_snippet s d c l tags).1 ∧ ftsConsistent (add_snippet s d c l tags).1 := by
  obtain ⟨⟨hsn1, hsn2⟩, hwft, hwfl⟩ := hwf
  set row : Snippet := ⟨s.nextSnippetId, d, c, l, s.clock, s.clock⟩ with hrow
  set s1 : DBState := { s with snippets := s.snippets ++ [row], nextSnippetId := s.nextSnippetId + 1, clock := s.clock + 1 } with hs1
  set s2 : DBState := tags.foldl (addTagLink s.nextSnippetId) s1 with hs2
  have hshape : (add_snippet s d c l tags).1 = syncFts s2 s.nextSnippetId := rfl
  rw [hshape]
  obtain ⟨f1, f2, f3, f4, f5, ⟨dt, f6⟩, ⟨dl, f7, f7x⟩, fw, fl⟩ :=
    foldl_LinkStep s.nextSnippetId (addTagLink s.nextSnippetId)
      (fun sx raw => addTagLink_step s.nextSnippetId sx raw) tags s1
  have g1 : s2.snippets = s.snippets ++ [row] := f1
  have g2 : s2.fts = s.fts := f2
  have g3 : s2.nextSnippetId = s.nextSnippetId + 1 := f3
  have g4 : s2.clock = s.clock + 1 := f4
  have g6 : s2.tags = s.tags ++ dt := f6
  have g7 : s2.snippet_tags = s.snippet_tags ++ dl := f7
  have hwft1 : WFtags s1 := hwft
  have hwfl1 : LinksTagWF s1 := fun p hp => (hwfl p hp).2
  constructor
  · refine And.intro (And.intro ?_ ?_) (And.intro ?_ ?_)
    · show ((syncFts s2 s.nextSnippetId).snippets.map Snippet.id).Nodup
      show (s2.snippets.map Snippet.id).Nodup
      rw [g1, List.map_append, List.map_cons, List.map_nil, List.nodup_append]
      refine ⟨hsn1, List.nodup_singleton _, ?_⟩
      intro a ha hb
      rcases List.mem_singleton.mp hb with rfl
      rcases List.mem_map.mp ha with ⟨r, hr, hra⟩
      exact Nat.ne_of_lt (hsn2 r hr).1 hra
    · intro r hr
      show r.id < s2.nextSnippetId ∧ r.created_at < s2.clock ∧ r.updated_at < s2.clock
      rw [g3, g4]
      have hr2 : r ∈ s.snippets ++ [row] := by
        rw [← g1]; exact hr
      rcases List.mem_append.mp hr2 with hro | hrn
      · rcases hsn2 r hro with ⟨hb1, hb2, hb3⟩
        exact ⟨Nat.lt_succ_of_lt hb1, Nat.lt_succ_of_lt hb2, Nat.lt_succ_of_lt hb3⟩
      · rcases List.mem_singleton.mp hrn with rfl
        exact ⟨Nat.lt_succ_self _, Nat.lt_succ_self _, Nat.lt_succ_self _⟩
    · show WFtags s2
      exact fw hwft1
    · intro p hp
      have hps2 : p ∈ s2.snippet_tags := hp
      have hp2 : p ∈ s.snippet_tags ++ dl := by
        rw [← g7]; exact hps2
      constructor
      · show p.1 < s2.nextSnippetId
        rw [g3]
        rcases List.mem_append.mp hp2 with hpo | hpn
        · exact Nat.lt_succ_of_lt (hwfl p hpo).1
        · rw [f7x p hpn]
          exact Nat.lt_succ_self _
      · exact fl hwfl1 p hps2
  · apply syncFts_consistent_at
    intro id hid
    rw [g2, g1]
    rw [List.filter_append]
    rw [List.filter_cons_of_neg (by simpa using hid.symm), List.filter_nil,
      List.append_nil]
    rw [hcons id]
    apply List.map_congr_left
    intro r hrm
    have hrid : r.id = id := by simpa using (List.mem_filter.mp hrm).2
    refine (projEntry_congr s s2 r ?_ ?_ (fun p hp => (hwfl p hp).2)).symm
    · rw [g7]
      rw [filter_key_append Prod.fst s.snippet_tags dl s.nextSnippetId r.id
        (by rw [hrid]; exact hid) f7x]
    · exact ⟨dt, g6⟩

theorem update_snippet_preserves (s : DBState) (sid : Nat) (d c l : Str) (tags : List Str)
    (hwf : WFdb s) (hcons : ftsConsistent s) :
    WFdb (update_snippet s sid d c l tags).1
      ∧ ftsConsistent (update_snippet s sid d c l tags).1 := by
  obtain ⟨⟨hsn1, hsn2⟩, hwft, hwfl⟩ := hwf
  unfold update_snippet
  cases hf : findSnippet s sid with
  | none => exact ⟨⟨⟨hsn1, hsn2⟩, hwft, hwfl⟩, hcons⟩
  | some r0 =>
    set g : Snippet → Snippet := fun r =>
      if r.id == sid then { r with description := d, content := c, language := l } else r
      with hg
    set s2 : DBState := { s with snippets := s.snippets.map g, snippet_tags := s.snippet_tags.filter (fun p => p.1 != sid) } with hs2v
    cases hins : insertLinks sid s2 tags with
    | error e => exact ⟨⟨⟨hsn1, hsn2⟩, hwft, hwfl⟩, hcons⟩
    | ok sr =>
      have hfold : sr = tags.foldl (addTagLink sid) s2 :=
        insertLinks_ok_eq_foldl sid tags s2 sr hins
      subst hfold
      set s3 : DBState := tags.foldl (addTagLink sid) s2 with hs3
      show WFdb (syncFts s3 sid) ∧ ftsConsistent (syncFts s3 sid)
      obtain ⟨f1, f2, f3, f4, f5, ⟨dt, f6⟩, ⟨dl, f7, f7x⟩, fw, fl⟩ :=
        foldl_LinkStep sid (addTagLink sid)
          (fun sx raw => addTagLink_step sid sx raw) tags s2
      have hid_g : ∀ r : Snippet, (g r).id = r.id := by
        intro r
        by_cases hx : r.id == sid
        · rw [hg]
          simp only [if_pos hx]
        · rw [hg]
          simp only [if_neg hx]
      have hts_g : ∀ r : Snippet,
          (g r).created_at = r.created_at ∧ (g r).updated_at = r.updated_at := by
        intro r
        by_cases hx : r.id = sid
        · rw [hg]
          simp [hx]
        · rw [hg]
          simp [hx]
      have g1 : s3.snippets = s.snippets.map g := f1
      have g2 : s3.fts = s.fts := f2
      have g3 : s3.nextSnippetId = s.nextSnippetId := f3
      have g4 : s3.clock = s.clock := f4
      have g6 : s3.tags = s.tags ++ dt := f6
      have g7 : s3.snippet_tags = s.snippet_tags.filter (fun p => p.1 != sid) ++ dl := f7
      have hwft2 : WFtags s2 := hwft
      have hwfl2 : LinksTagWF s2 := by
        intro p hp
        have hp2 : p ∈ s.snippet_tags := List.mem_of_mem_filter hp
        exact (hwfl p hp2).2
      have hsidlt : sid < s.nextSnippetId := by
        have hr0 : r0 ∈ s.snippets := List.mem_of_find?_eq_some hf
        have : r0.id = sid := by simpa using List.find?_some hf
        rw [← this]
        exact (hsn2 r0 hr0).1
      constructor
      · refine And.intro (And.intro ?_ ?_) (And.intro ?_ ?_)
        · show (s3.snippets.map Snippet.id).Nodup
          rw [g1, List.map_map]
          have : (s.snippets.map (Snippet.id ∘ g)) = s.snippets.map Snippet.id :=
            List.map_congr_left (fun r _ => hid_g r)
          rw [this]
          exact hsn1
        · intro r hr
          show r.id < s3.nextSnippetId ∧ r.created_at < s3.clock ∧ r.updated_at < s3.clock
          rw [g3, g4]
          have hr2 : r ∈ s.snippets.map g := by
            rw [← g1]; exact hr
          rcases List.mem_map.mp hr2 with ⟨r0x, hr0x, rfl⟩
          rcases hsn2 r0x hr0x with ⟨hb1, hb2, hb3⟩
          rw [hid_g r0x, (hts_g r0x).1, (hts_g r0x).2]
          exact ⟨hb1, hb2, hb3⟩
        · show WFtags s3
          exact fw hwft2
        · intro p hp
          have hps3 : p ∈ s3.snippet_tags := hp
          have hp2 : p ∈ s.snippet_tags.filter (fun p => p.1 != sid) ++ dl := by
            rw [← g7]; exact hps3
          constructor
          · show p.1 < s3.nextSnippetId
            rw [g3]
            rcases List.mem_append.mp hp2 with hpo | hpn
            · exact (hwfl p (List.mem_of_mem_filter hpo)).1
            · rw [f7x p hpn]
              exact hsidlt
          · exact fl hwfl2 p hps3
      · apply syncFts_consistent_at
        intro id hid
        rw [g2, g1]
        rw [filter_map_update_ne s.snippets sid id hid d c l]
        rw [hcons id]
        apply List.map_congr_left
        intro r hrm
        have hrid : r.id = id := by simpa using (List.mem_filter.mp hrm).2
        refine (projEntry_congr s s3 r ?_ ?_ (fun p hp => (hwfl p hp).2)).symm
        · rw [g7]
          rw [filter_key_append Prod.fst _ dl sid r.id (by rw [hrid]; exact hid) f7x]
          rw [filter_key_filter_ne Prod.fst s.snippet_tags sid r.id (by rw [hrid]; exact hid)]
        · exact ⟨dt, g6⟩

theorem delete_snippet_preserves (s : DBState) (sid : Nat)
    (hwf : WFdb s) (hcons : ftsConsistent s) :
    WFdb (delete_snippet s sid).1 ∧ ftsConsistent (delete_snippet s sid).1 := by
  obtain ⟨⟨hsn1, hsn2⟩, hwft, hwfl⟩ := hwf
  unfold delete_snippet
  cases hf : findSnippet s sid with
  | none => exact ⟨⟨⟨hsn1, hsn2⟩, hwft, hwfl⟩, hcons⟩
  | some r0 =>
    set s2 : DBState := { s with snippet_tags := s.snippet_tags.filter (fun p => p.1 != sid), snippets := s.snippets.filter (fun r => r.id != sid) } with hs2v
    show WFdb (syncFts s2 sid) ∧ ftsConsistent (syncFts s2 sid)
    constructor
    · refine And.intro (And.intro ?_ ?_) (And.intro ?_ ?_)
      · show ((s.snippets.filter (fun r => r.id != sid)).map Snippet.id).Nodup
        exact ((List.filter_sublist _).map Snippet.id).nodup hsn1
      · intro r hr
        have hr2 : r ∈ s.snippets :=
          List.mem_of_mem_filter hr
        exact hsn2 r hr2
      · show WFtags s2
        exact hwft
      · intro p hp
        have hp2 : p ∈ s.snippet_tags := List.mem_of_mem_filter hp
        exact ⟨(hwfl p hp2).1, (hwfl p hp2).2⟩
    · apply syncFts_consistent_at
      intro id hid
      show s.fts.filter (fun e => e.content_id == id) = _
      rw [hcons id]
      show _ = ((s.snippets.filter (fun r => r.id != sid)).filter
        (fun r => r.id == id)).map (projEntry s2)
      rw [filter_key_filter_ne Snippet.id s.snippets sid id hid]
      apply List.map_congr_left
      intro r hrm
      have hrid : r.id = id := by simpa using (List.mem_filter.mp hrm).2
      refine (projEntry_congr s s2 r ?_ ?_ (fun p hp => (hwfl p hp).2)).symm
      · show (s.snippet_tags.filter (fun p => p.1 != sid)).filter
            (fun p => p.1 == r.id) = _
        rw [filter_key_filter_ne Prod.fst s.snippet_tags sid r.id (by rw [hrid]; exact hid)]
      · exact ⟨[], by simp⟩

theorem populate_consistent (s : DBState) : ftsConsistent (populate_fts_table s) := by
  intro id
  show (s.snippets.map (projEntry s)).filter (fun e => e.content_id == id)
    = ((populate_fts_table s).snippets.filter (fun r => r.id == id)).map
        (projEntry (populate_fts_table s))
  rw [List.filter_map]
  rfl

theorem populate_preserves (s : DBState) (hwf : WFdb s) :
    WFdb (populate_fts_table s) := hwf

theorem initState_wf : WFdb initState := by
  refine And.intro (And.intro ?_ ?_) (And.intro ?_ ?_)
  · exact List.nodup_nil
  · intro r hr
    exact absurd hr (List.not_mem_nil r)
  · exact ⟨List.nodup_nil, List.nodup_nil, fun t ht => absurd ht (List.not_mem_nil t)⟩
  · intro p hp
    exact absurd hp (List.not_mem_nil p)

theorem initState_consistent : ftsConsistent initState := fun _ => rfl

/-- Every reachable store is well-formed and has a consistent derived index. -/
theorem reachable_wf_consistent (s : DBState) (h : Reachable s) :
    WFdb s ∧ ftsConsistent s := by
  induction h with
  | init => exact ⟨initState_wf, initState_consistent⟩
  | add s d c l tags hr ih => exact add_snippet_preserves s d c l tags ih.1 ih.2
  | update s sid d c l tags hr ih => exact update_snippet_preserves s sid d c l tags ih.1 ih.2
  | del s sid hr ih => exact delete_snippet_preserves s sid ih.1 ih.2
  | pop s hr ih => exact ⟨populate_preserves s ih.1, populate_consistent s⟩

/-- A successful delete leaves no index entry bearing the deleted id. -/
theorem delete_clears_fts (s : DBState) (sid : Nat)
    (h : (delete_snippet s sid).2 = true) :
    (delete_snippet s sid).1.fts.filter (fun e => e.content_id == sid) = [] := by
  revert h
  unfold delete_snippet
  cases hf : findSnippet s sid with
  | none =>
    intro h
    cases h
  | some r0 =>
    intro h
    set s2 : DBState := { s with snippet_tags := s.snippet_tags.filter (fun p => p.1 != sid), snippets := s.snippets.filter (fun r => r.id != sid) } with hs2v
    show ((s.fts.filter (fun e => e.content_id != sid)
        ++ ((s.snippets.filter (fun r => r.id != sid)).filter
            (fun r => r.id == sid)).map (projEntry s2)).filter
          (fun e => e.content_id == sid)) = []
    rw [filter_key_filter_self Snippet.id s.snippets sid]
    rw [List.map_nil, List.append_nil]
    exact filter_key_filter_self FtsEntry.content_id s.fts sid

/- ------------------------------------------------------------------ -/
/- Round trip through add and get (claims C2, C3)                      -/
/- ------------------------------------------------------------------ -/

theorem orEmpty_eq (s : Str) : orEmpty s = s := by
  unfold orEmpty
  by_cases h : s.isEmpty
  · rw [if_pos h, List.isEmpty_iff.mp h]
  · rw [if_neg h]

theorem tagNamesOf_nil (s : DBState) (sid : Nat)
    (h : s.snippet_tags.filter (fun p => p.1 == sid) = []) :
    tagNamesOf s sid = [] := by
  unfold tagNamesOf
  rw [h]
  rfl

theorem add_snippet_get (s : DBState) (d c l : Str) (tags : List Str) (hwf : WFdb s) :
    findSnippet (add_snippet s d c l tags).1 s.nextSnippetId
        = some ⟨s.nextSnippetId, d, c, l, s.clock, s.clock⟩
      ∧ (∀ x, x ∈ tagNamesOf (add_snippet s d c l tags).1 s.nextSnippetId
          ↔ x ∈ normFilter tags) := by
  obtain ⟨⟨hsn1, hsn2⟩, hwft, hwfl⟩ := hwf
  set row : Snippet := ⟨s.nextSnippetId, d, c, l, s.clock, s.clock⟩ with hrow
  set s1 : DBState := { s with snippets := s.snippets ++ [row], nextSnippetId := s.nextSnippetId + 1, clock := s.clock + 1 } with hs1
  set s2 : DBState := tags.foldl (addTagLink s.nextSnippetId) s1 with hs2
  have hshape : (add_snippet s d c l tags).1 = syncFts s2 s.nextSnippetId := rfl
  rw [hshape]
  obtain ⟨f1, f2, f3, f4, f5, ⟨dt, f6⟩, ⟨dl, f7, f7x⟩, fw, fl⟩ :=
    foldl_LinkStep s.nextSnippetId (addTagLink s.nextSnippetId)
      (fun sx raw => addTagLink_step s.nextSnippetId sx raw) tags s1
  have g1 : s2.snippets = s.snippets ++ [row] := f1
  constructor
  · show s2.snippets.find? (fun r => Snippet.id r == s.nextSnippetId) = some row
    rw [g1]
    rw [find?_append_none _ _ _ (find?_key_eq_none Snippet.id s.snippets s.nextSnippetId
      (fun r hr => Nat.ne_of_lt (hsn2 r hr).1))]
    rw [List.find?_cons_of_pos _ (by simp [hrow])]
  · intro x
    show x ∈ tagNamesOf s2 s.nextSnippetId ↔ _
    have hwft1 : WFtags s1 := hwft
    have hwfl1 : LinksTagWF s1 := fun p hp => (hwfl p hp).2
    rw [foldl_link_names s.nextSnippetId (addTagLink s.nextSnippetId)
      (fun sx raw => addTagLink_step s.nextSnippetId sx raw)
      (fun sx raw hw hl => addTagLink_names s.nextSnippetId sx raw hw hl)
      tags s1 hwft1 hwfl1 x]
    have hempty : tagNamesOf s1 s.nextSnippetId = [] := by
      apply tagNamesOf_nil
      show s.snippet_tags.filter (fun p => p.1 == s.nextSnippetId) = []
      rw [List.filter_eq_nil_iff]
      intro p hp
      simpa using Nat.ne_of_lt (hwfl p hp).1
    rw [hempty]
    simp

theorem joinedTags_eq (s : DBState) (sid : Nat)
    (hcs : ∀ n ∈ tagNamesOf s sid, hasCS n = false)
    (hne : ∀ n ∈ tagNamesOf s sid, n ≠ []) :
    joinedTags s sid = tagNamesOf s sid := by
  unfold joinedTags
  cases hn : tagNamesOf s sid with
  | nil => simp [List.intercalate, List.intersperse]
  | cons n rest =>
    have hjoined : List.intercalate commaSpace (n :: rest) ≠ [] :=
      intercalate_ne_nil n rest (hne n (by rw [hn]; exact List.mem_cons_self n rest))
    rw [if_neg (by simpa [List.isEmpty_iff] using hjoined)]
    apply splitOnCS_intercalate
    · simp
    · intro m hm
      apply hcs
      rw [hn]
      exact hm

theorem update_nextSnippetId (s : DBState) (sid : Nat) (d c l : Str) (tags : List Str) :
    (update_snippet s sid d c l tags).1.nextSnippetId = s.nextSnippetId := by
  unfold update_snippet
  cases hf : findSnippet s sid with
  | none => rfl
  | some r0 =>
    set s2 : DBState := { s with snippets := s.snippets.map (fun r => if r.id == sid then { r with description := d, content := c, language := l } else r), snippet_tags := s.snippet_tags.filter (fun p => p.1 != sid) } with hs2v
    cases hins : insertLinks sid s2 tags with
    | error e => rfl
    | ok sr =>
      have hfold : sr = tags.foldl (addTagLink sid) s2 :=
        insertLinks_ok_eq_foldl sid tags s2 sr hins
      subst hfold
      obtain ⟨-, -, f3, -, -, -, -, -, -⟩ :=
        foldl_LinkStep sid (addTagLink sid)
          (fun sx raw => addTagLink_step sid sx raw) tags s2
      exact f3

theorem delete_nextSnippetId (s : DBState) (sid : Nat) :
    (delete_snippet s sid).1.nextSnippetId = s.nextSnippetId := by
  unfold delete_snippet
  cases hf : findSnippet s sid with
  | none => rfl
  | some r0 => rfl

theorem add_nextSnippetId (s : DBState) (d c l : Str) (tags : List Str) :
    (add_snippet s d c l tags).1.nextSnippetId = s.nextSnippetId + 1 := by
  obtain ⟨-, -, f3, -, -, -, -, -, -⟩ :=
    foldl_LinkStep s.nextSnippetId (addTagLink s.nextSnippetId)
      (fun sx raw => addTagLink_step s.nextSnippetId sx raw) tags
      { s with
          snippets := s.snippets ++ [⟨s.nextSnippetId, d, c, l, s.clock, s.clock⟩],
          nextSnippetId := s.nextSnippetId + 1, clock := s.clock + 1 }
  exact f3

/- ------------------------------------------------------------------ -/
/- Claim theorems                                                      -/
/- ------------------------------------------------------------------ -/

/-- Claim C1: in every reachable store the derived full-text index is
consistent with the primary tables (exactly one entry per snippet, none for
absent ids); in particular, after `delete_snippet` returns `True` no index
entry bears the deleted id; and `populate_fts_table` regenerates exactly one
entry per snippet from current primary plus aggregated-tag data. -/
theorem c1_index_consistency (s : DBState) (h : Reachable s) :
    ftsConsistent s ∧
    (∀ sid, (delete_snippet s sid).2 = true →
      (delete_snippet s sid).1.fts.filter (fun e => e.content_id == sid) = []) ∧
    (populate_fts_table s).fts = s.snippets.map (projEntry s) := by
  refine ⟨(reachable_wf_consistent s h).2, ?_, rfl⟩
  intro sid hdel
  exact delete_clears_fts s sid hdel

/-- Witness for C1 at a concrete reachable store. -/
theorem c1_index_consistency_witness :
    ftsConsistent (add_snippet initState (strOf "d") (strOf "c") (strOf "py")
        [strOf "a"]).1 ∧
    (∀ sid, (delete_snippet (add_snippet initState (strOf "d") (strOf "c") (strOf "py")
        [strOf "a"]).1 sid).2 = true →
      (delete_snippet (add_snippet initState (strOf "d") (strOf "c") (strOf "py")
        [strOf "a"]).1 sid).1.fts.filter (fun e => e.content_id == sid) = []) ∧
    (populate_fts_table (add_snippet initState (strOf "d") (strOf "c") (strOf "py")
        [strOf "a"]).1).fts
      = (add_snippet initState (strOf "d") (strOf "c") (strOf "py")
          [strOf "a"]).1.snippets.map
        (projEntry (add_snippet initState (strOf "d") (strOf "c") (strOf "py")
          [strOf "a"]).1) :=
  c1_index_consistency _
    (Reachable.add initState (strOf "d") (strOf "c") (strOf "py") [strOf "a"] Reachable.init)

/-- Claim C2 (amended): `add_snippet` tolerates duplicate normalized tags and
keeps at most one link row per (snippet, tag) pair via `INSERT OR IGNORE`;
`update_snippet` re-inserts links with a plain `INSERT`, so it succeeds
exactly when the id exists and the normalized non-blank tag list is
duplicate-free — with duplicates the insert hits the pair-uniqueness
constraint, the transaction rolls back (store unchanged) and the failure is
re-raised as `Failed to update snippet:` with the engine's message; every
mutation therefore leaves at most one link row per pair. -/
theorem c2_link_uniqueness (s : DBState) (sid : Nat) (d c l : Str) (tags : List Str)
    (hwf : WFdb s) (hnd : s.snippet_tags.Nodup) :
    (add_snippet s d c l tags).1.snippet_tags.Nodup ∧
    ((update_snippet s sid d c l tags).2 = Except.ok true
      ↔ ((findSnippet s sid).isSome = true ∧ (normFilter tags).Nodup)) ∧
    (update_snippet s sid d c l tags).1.snippet_tags.Nodup ∧
    ((findSnippet s sid).isSome = true → ¬ (normFilter tags).Nodup →
      update_snippet s sid d c l tags
        = (s, Except.error (strOf "Failed to update snippet: " ++ uniqueViolation))) := by
  obtain ⟨⟨hsn1, hsn2⟩, hwft, hwfl⟩ := hwf
  refine ⟨?_, ?_⟩
  · show (tags.foldl (addTagLink s.nextSnippetId)
      { s with
          snippets := s.snippets ++ [⟨s.nextSnippetId, d, c, l, s.clock, s.clock⟩],
          nextSnippetId := s.nextSnippetId + 1,
          clock := s.clock + 1 }).snippet_tags.Nodup
    exact foldl_addTagLink_nodup s.nextSnippetId tags _ hnd
  · unfold update_snippet
    cases hf : findSnippet s sid with
    | none =>
      refine ⟨⟨fun h => absurd (Except.ok.inj h) (by simp), fun h => absurd h.1 (by simp)⟩,
        hnd, ?_⟩
      intro h
      cases h
    | some r0 =>
      set s2 : DBState := { s with snippets := s.snippets.map (fun r => if r.id == sid then { r with description := d, content := c, language := l } else r), snippet_tags := s.snippet_tags.filter (fun p => p.1 != sid) } with hs2v
      have hwft2 : WFtags s2 := hwft
      have hlt2 : LinksTagWF s2 := by
        intro p hp
        exact (hwfl p (List.mem_of_mem_filter hp)).2
      have hguard : ∀ p ∈ s2.snippet_tags, p.1 = sid →
          ∀ x, lookupTagName s2 p.2 = some x → x ∉ normFilter tags := by
        intro p hp hps x hx
        have := (List.mem_filter.mp hp).2
        rw [hps] at this
        simp at this
      cases hins : insertLinks sid s2 tags with
      | ok sr =>
        have hnf : (normFilter tags).Nodup := by
          by_contra hdup
          have herr := insertLinks_error_of_dup sid tags s2 hdup
          rw [hins] at herr
          cases herr
        have hfold : sr = tags.foldl (addTagLink sid) s2 :=
          insertLinks_ok_eq_foldl sid tags s2 sr hins
        subst hfold
        refine ⟨⟨fun _ => ⟨rfl, hnf⟩, fun _ => rfl⟩, ?_, ?_⟩
        · show (tags.foldl (addTagLink sid) s2).snippet_tags.Nodup
          exact foldl_addTagLink_nodup sid tags s2 ((List.filter_sublist _).nodup hnd)
        · intro _ hdup
          exact absurd hnf hdup
      | error e =>
        have hnodup : ¬ (normFilter tags).Nodup := by
          intro hnf
          rcases insertLinks_ok_of_nodup sid tags s2 hwft2 hlt2 hnf hguard with ⟨sr, hok⟩
          rw [hins] at hok
          cases hok
        have hename : e = uniqueViolation := insertLinks_error_name sid tags s2 e hins
        refine ⟨⟨?_, ?_⟩, hnd, ?_⟩
        · intro h
          cases h
        · rintro ⟨-, hnf⟩
          exact absurd hnf hnodup
        · intro _ _
          rw [hename]

/-- Witness for C2 at a concrete store holding one snippet: adding with the
duplicate-normalizing tag list keeps links duplicate-free, while updating
with it fails and rolls back. -/
theorem c2_link_uniqueness_witness :
    (add_snippet (add_snippet initState (strOf "d") (strOf "c") (strOf "py") []).1
        (strOf "e") (strOf "f") (strOf "py") [strOf "a", strOf "A"]).1.snippet_tags.Nodup ∧
    ((update_snippet (add_snippet initState (strOf "d") (strOf "c") (strOf "py") []).1
        1 (strOf "e") (strOf "f") (strOf "py") [strOf "a", strOf "A"]).2 = Except.ok true
      ↔ ((findSnippet (add_snippet initState (strOf "d") (strOf "c") (strOf "py") []).1
            1).isSome = true
          ∧ (normFilter [strOf "a", strOf "A"]).Nodup)) ∧
    (update_snippet (add_snippet initState (strOf "d") (strOf "c") (strOf "py") []).1
        1 (strOf "e") (strOf "f") (strOf "py") [strOf "a", strOf "A"]).1.snippet_tags.Nodup ∧
    ((findSnippet (add_snippet initState (strOf "d") (strOf "c") (strOf "py") []).1
          1).isSome = true → ¬ (normFilter [strOf "a", strOf "A"]).Nodup →
      update_snippet (add_snippet initState (strOf "d") (strOf "c") (strOf "py") []).1
          1 (strOf "e") (strOf "f") (strOf "py") [strOf "a", strOf "A"]
        = ((add_snippet initState (strOf "d") (strOf "c") (strOf "py") []).1,
            Except.error (strOf "Failed to update snippet: " ++ uniqueViolation))) :=
  c2_link_uniqueness (add_snippet initState (strOf "d") (strOf "c") (strOf "py") []).1
    1 (strOf "e") (strOf "f") (strOf "py") [strOf "a", strOf "A"]
    (by unfold WFdb WFsnips WFtags WFlinks; decide) (by decide)

/-- Counterexample to C2 as stated: the id `1` exists, yet updating it with
the tag list `["a", "A"]` — whose two entries normalize to the same name —
does not succeed: the second plain link `INSERT` violates the
pair-uniqueness constraint, the transaction rolls back leaving the store
unchanged, and the failure is re-raised with the engine's unique-constraint
message, contradicting both "the operation succeeds" and "enforced by
insert-or-ignore semantics rather than by a unique-constraint violation". -/
theorem c2_duplicate_links_counterexample :
    (findSnippet (add_snippet initState (strOf "d") (strOf "c") (strOf "py") []).1
        1).isSome = true ∧
    (update_snippet (add_snippet initState (strOf "d") (strOf "c") (strOf "py") []).1
        1 (strOf "d") (strOf "c") (strOf "py") [strOf "a", strOf "A"]).2
      = Except.error (strOf "Failed to update snippet: " ++ uniqueViolation) ∧
    (update_snippet (add_snippet initState (strOf "d") (strOf "c") (strOf "py") []).1
        1 (strOf "d") (strOf "c") (strOf "py") [strOf "a", strOf "A"]).1
      = (add_snippet initState (strOf "d") (strOf "c") (strOf "py") []).1 := by
  refine ⟨by decide, by rfl, by decide⟩

/-- Claim C3 (amended): add followed by get round-trips the description,
content, language, and the set of trim+lowercase-normalized non-blank tags,
with both timestamps freshly stamped and an id distinct from every stored one
— provided no normalized tag name contains the `", "` separator that the read
path splits on (see the counterexample for why that proviso is forced). -/
theorem c3_round_trip (s : DBState) (d c l : Str) (tags : List Str)
    (hwf : WFdb s)
    (htags : ∀ t ∈ tags, hasCS (normTag t) = false) :
    (add_snippet s d c l tags).2 = s.nextSnippetId ∧
    (∀ r ∈ s.snippets, r.id ≠ (add_snippet s d c l tags).2) ∧
    (∀ r ∈ s.snippets, r.created_at < s.clock ∧ r.updated_at < s.clock) ∧
    (add_snippet s d c l tags).1.nextSnippetId = s.nextSnippetId + 1 ∧
    (∃ v, get_snippet_by_id (add_snippet s d c l tags).1 (add_snippet s d c l tags).2
        = some v ∧
      v.id = s.nextSnippetId ∧ v.description = d ∧ v.content = c ∧ v.language = l ∧
      v.created_at = s.clock ∧ v.updated_at = s.clock ∧
      (∀ x, x ∈ v.tags ↔ x ∈ normFilter tags)) := by
  obtain ⟨hfind, hnames⟩ := add_snippet_get s d c l tags hwf
  obtain ⟨⟨hsn1, hsn2⟩, hwft, hwfl⟩ := hwf
  have hsid : (add_snippet s d c l tags).2 = s.nextSnippetId := rfl
  refine ⟨hsid, ?_, ?_, add_nextSnippetId s d c l tags, ?_⟩
  · intro r hr
    rw [hsid]
    exact Nat.ne_of_lt (hsn2 r hr).1
  · intro r hr
    exact ⟨(hsn2 r hr).2.1, (hsn2 r hr).2.2⟩
  · have hcsn : ∀ x ∈ normFilter tags, hasCS x = false ∧ x ≠ [] := by
      intro x hx
      unfold normFilter at hx
      rcases List.mem_filter.mp hx with ⟨hx1, hx2⟩
      rcases List.mem_map.mp hx1 with ⟨t, ht, rfl⟩
      refine ⟨htags t ht, ?_⟩
      intro hxe
      rw [hxe] at hx2
      simp at hx2
    have hjt : joinedTags (add_snippet s d c l tags).1 s.nextSnippetId
        = tagNamesOf (add_snippet s d c l tags).1 s.nextSnippetId := by
      apply joinedTags_eq
      · intro n hn
        exact (hcsn n ((hnames n).mp hn)).1
      · intro n hn
        exact (hcsn n ((hnames n).mp hn)).2
    refine ⟨⟨s.nextSnippetId, d, c, l, s.clock, s.clock,
      tagNamesOf (add_snippet s d c l tags).1 s.nextSnippetId⟩, ?_, rfl, rfl, rfl, rfl,
      rfl, rfl, ?_⟩
    · unfold get_snippet_by_id
      rw [hsid, hfind]
      show (some (⟨s.nextSnippetId, orEmpty d, c, orEmpty l, s.clock, s.clock,
        joinedTags (add_snippet s d c l tags).1 s.nextSnippetId⟩ : SnippetView)
        : Option SnippetView) = _
      rw [hjt, orEmpty_eq, orEmpty_eq]
    · intro x
      exact hnames x

/-- Witness for C3 at a concrete store and tag list. -/
theorem c3_round_trip_witness :
    (add_snippet initState (strOf "d") (strOf "c") (strOf "py")
        [strOf " A ", strOf "b"]).2 = initState.nextSnippetId ∧
    (∀ r ∈ initState.snippets, r.id ≠ (add_snippet initState (strOf "d") (strOf "c")
        (strOf "py") [strOf " A ", strOf "b"]).2) ∧
    (∀ r ∈ initState.snippets,
      r.created_at < initState.clock ∧ r.updated_at < initState.clock) ∧
    (add_snippet initState (strOf "d") (strOf "c") (strOf "py")
        [strOf " A ", strOf "b"]).1.nextSnippetId = initState.nextSnippetId + 1 ∧
    (∃ v, get_snippet_by_id
        (add_snippet initState (strOf "d") (strOf "c") (strOf "py")
          [strOf " A ", strOf "b"]).1
        (add_snippet initState (strOf "d") (strOf "c") (strOf "py")
          [strOf " A ", strOf "b"]).2 = some v ∧
      v.id = initState.nextSnippetId ∧ v.description = strOf "d" ∧
      v.content = strOf "c" ∧ v.language = strOf "py" ∧
      v.created_at = initState.clock ∧ v.updated_at = initState.clock ∧
      (∀ x, x ∈ v.tags ↔ x ∈ normFilter [strOf " A ", strOf "b"])) :=
  c3_round_trip initState (strOf "d") (strOf "c") (strOf "py") [strOf " A ", strOf "b"]
    initState_wf (by decide)

/-- Counterexample to C3 as stated: the single tag `"a, b"` normalizes to
itself (non-blank), but add-then-get reports the tag list split at `", "`,
so the stored tag set `{"a, b"}` comes back as `{"a", "b"}`. -/
theorem c3_comma_tag_counterexample :
    (normTag (strOf "a, b")).isEmpty = false ∧
    normTag (strOf "a, b") = strOf "a, b" ∧
    (get_snippet_by_id
        (add_snippet initState (strOf "d") (strOf "c") (strOf "py") [strOf "a, b"]).1
        (add_snippet initState (strOf "d") (strOf "c") (strOf "py")
          [strOf "a, b"]).2).map SnippetView.tags
      = some [strOf "a", strOf "b"] ∧
    strOf "a, b" ∉ [strOf "a", strOf "b"] := by
  refine ⟨by decide, by decide, by decide, by decide⟩

/-- Claim C4: query preparation replaces the FTS5-significant characters by
spaces, tokenizes on whitespace, appends a prefix-wildcard star to every token
of length at least two while keeping single-character tokens exact, and when
no token remains it produces the empty-phrase query `""`, which matches no
document. -/
theorem c4_prepare_fts_query (q : Str) :
    (splitWs (q.map cleanChar) = [] →
      prepare_fts_query q = [ '"', '"' ] ∧
      ∀ doc, ftsMatchDoc (prepare_fts_query q) doc = false) ∧
    (splitWs (q.map cleanChar) ≠ [] →
      prepare_fts_query q = List.intercalate [ ' ' ]
        ((splitWs (q.map cleanChar)).map
          (fun w => if 2 ≤ w.length then w ++ [ '*' ] else w))) := by
  rw [prepare_fts_query_eq q]
  constructor
  · intro hnil
    rw [if_pos hnil]
    refine ⟨rfl, ?_⟩
    intro doc
    unfold ftsMatchDoc
    rw [if_pos rfl]
  · intro hnil
    rw [if_neg hnil]

/-- Witness for C4 at concrete queries with and without surviving tokens. -/
theorem c4_prepare_fts_query_witness :
    ((splitWs ((strOf "():*^").map cleanChar) = [] →
      prepare_fts_query (strOf "():*^") = [ '"', '"' ] ∧
      ∀ doc, ftsMatchDoc (prepare_fts_query (strOf "():*^")) doc = false) ∧
    (splitWs ((strOf "():*^").map cleanChar) ≠ [] →
      prepare_fts_query (strOf "():*^") = List.intercalate [ ' ' ]
        ((splitWs ((strOf "():*^").map cleanChar)).map
          (fun w => if 2 ≤ w.length then w ++ [ '*' ] else w)))) ∧
    splitWs ((strOf "():*^").map cleanChar) = [] ∧
    prepare_fts_query (strOf "hello w") = strOf "hello* w" :=
  ⟨c4_prepare_fts_query (strOf "():*^"), by decide, by decide⟩

/-- Claim C7: update replaces only the description, content, language, and the
tag-link set of the addressed snippet — succeeding whenever the id exists and
the normalized tag list is duplicate-free, the duplicate-tag failure rolling
the whole transaction back — while the snippet's id, created timestamp and
updated timestamp are unchanged (the update statement does not refresh
`updated_at`) and no other snippet's row or links change, unconditionally. -/
theorem c7_update_frame (s : DBState) (sid : Nat) (d c l : Str) (tags : List Str)
    (hex : (findSnippet s sid).isSome = true) :
    (WFdb s → (normFilter tags).Nodup →
      (update_snippet s sid d c l tags).2 = Except.ok true) ∧
    ((update_snippet s sid d c l tags).2 = Except.ok true →
      ∀ rOld, findSnippet s sid = some rOld →
        findSnippet (update_snippet s sid d c l tags).1 sid
          = some ⟨rOld.id, d, c, l, rOld.created_at, rOld.updated_at⟩) ∧
    (∀ r ∈ s.snippets, r.id ≠ sid →
      r ∈ (update_snippet s sid d c l tags).1.snippets) ∧
    (∀ r2 ∈ (update_snippet s sid d c l tags).1.snippets, ∃ r ∈ s.snippets,
      r2.id = r.id ∧ r2.created_at = r.created_at ∧ r2.updated_at = r.updated_at ∧
      (r.id ≠ sid → r2 = r)) ∧
    (∀ oid, oid ≠ sid →
      (update_snippet s sid d c l tags).1.snippet_tags.filter (fun p => p.1 == oid)
        = s.snippet_tags.filter (fun p => p.1 == oid)) := by
  unfold update_snippet
  cases hf : findSnippet s sid with
  | none =>
    rw [hf] at hex
    cases hex
  | some r0 =>
    set g : Snippet → Snippet := fun r =>
      if r.id == sid then { r with description := d, content := c, language := l } else r
      with hg
    set s2 : DBState := { s with snippets := s.snippets.map g, snippet_tags := s.snippet_tags.filter (fun p => p.1 != sid) } with hs2v
    cases hins : insertLinks sid s2 tags with
    | error e =>
      refine ⟨?_, ?_, ?_, ?_, ?_⟩
      · intro hwf hnf
        exfalso
        obtain ⟨-, hwft, hwfl⟩ := hwf
        have hwft2 : WFtags s2 := hwft
        have hlt2 : LinksTagWF s2 := by
          intro p hp
          exact (hwfl p (List.mem_of_mem_filter hp)).2
        have hguard : ∀ p ∈ s2.snippet_tags, p.1 = sid →
            ∀ x, lookupTagName s2 p.2 = some x → x ∉ normFilter tags := by
          intro p hp hps x hx
          have := (List.mem_filter.mp hp).2
          rw [hps] at this
          simp at this
        rcases insertLinks_ok_of_nodup sid tags s2 hwft2 hlt2 hnf hguard with ⟨sr, hok⟩
        rw [hins] at hok
        cases hok
      · intro h
        cases h
      · intro r hr hne
        exact hr
      · intro r2 hr2
        exact ⟨r2, hr2, rfl, rfl, rfl, fun _ => rfl⟩
      · intro oid hoid
        rfl
    | ok sr =>
      have hfold : sr = tags.foldl (addTagLink sid) s2 :=
        insertLinks_ok_eq_foldl sid tags s2 sr hins
      subst hfold
      set s3 : DBState := tags.foldl (addTagLink sid) s2 with hs3
      obtain ⟨f1, f2, f3, f4, f5, ⟨dt, f6⟩, ⟨dl, f7, f7x⟩, fw, fl⟩ :=
        foldl_LinkStep sid (addTagLink sid)
          (fun sx raw => addTagLink_step sid sx raw) tags s2
      have g1 : s3.snippets = s.snippets.map g := f1
      have g7 : s3.snippet_tags = s.snippet_tags.filter (fun p => p.1 != sid) ++ dl := f7
      have hid_g : ∀ r : Snippet, (g r).id = r.id := by
        intro r
        by_cases hx : r.id = sid
        · rw [hg]; simp [hx]
        · rw [hg]; simp [hx]
      have hts_g : ∀ r : Snippet,
          (g r).created_at = r.created_at ∧ (g r).updated_at = r.updated_at := by
        intro r
        by_cases hx : r.id = sid
        · rw [hg]; simp [hx]
        · rw [hg]; simp [hx]
      have hfix_g : ∀ r : Snippet, r.id ≠ sid → g r = r := by
        intro r hx
        rw [hg]; simp [hx]
      have hfind_map : ∀ l2 : List Snippet,
          (l2.map g).find? (fun r => r.id == sid) = (l2.find? (fun r => r.id == sid)).map g := by
        intro l2
        induction l2 with
        | nil => rfl
        | cons a l2 ih =>
          rw [List.map_cons]
          by_cases ha : a.id = sid
          · rw [List.find?_cons_of_pos _ (by simp [hid_g, ha]),
              List.find?_cons_of_pos _ (by simp [ha])]
            rfl
          · rw [List.find?_cons_of_neg _ (by simp [hid_g, ha]),
              List.find?_cons_of_neg _ (by simp [ha])]
            exact ih
      refine ⟨fun _ _ => rfl, ?_, ?_, ?_, ?_⟩
      · intro _ rOld hOld
        rcases Option.some_inj.mp hOld with rfl
        show s3.snippets.find? (fun r => r.id == sid) = _
        rw [g1, hfind_map s.snippets]
        have hfs : s.snippets.find? (fun r => r.id == sid) = some r0 := hf
        rw [hfs]
        have hrid : r0.id = sid := by simpa using List.find?_some hfs
        show some (g r0) = _
        rw [hg]
        simp [hrid]
      · intro r hr hne
        show r ∈ s3.snippets
        rw [g1]
        rw [List.mem_map]
        exact ⟨r, hr, hfix_g r hne⟩
      · intro r2 hr2
        have hr2b : r2 ∈ s.snippets.map g := by
          rw [← g1]; exact hr2
        rcases List.mem_map.mp hr2b with ⟨r, hr, rfl⟩
        exact ⟨r, hr, hid_g r, (hts_g r).1, (hts_g r).2, fun hne => hfix_g r hne⟩
      · intro oid hoid
        show s3.snippet_tags.filter (fun p => p.1 == oid) = _
        rw [g7]
        rw [filter_key_append Prod.fst _ dl sid oid hoid f7x]
        rw [filter_key_filter_ne Prod.fst s.snippet_tags sid oid hoid]

/-- Witness for C7 at a concrete store: updating the only snippet. -/
theorem c7_update_frame_witness :
    (WFdb (add_snippet initState (strOf "d") (strOf "c") (strOf "py") [strOf "a"]).1 →
      (normFilter [strOf "x"]).Nodup →
      (update_snippet (add_snippet initState (strOf "d") (strOf "c") (strOf "py")
          [strOf "a"]).1 1 (strOf "D2") (strOf "C2") (strOf "rs") [strOf "x"]).2
        = Except.ok true) ∧
    ((update_snippet (add_snippet initState (strOf "d") (strOf "c") (strOf "py")
        [strOf "a"]).1 1 (strOf "D2") (strOf "C2") (strOf "rs") [strOf "x"]).2
        = Except.ok true →
      ∀ rOld, findSnippet (add_snippet initState (strOf "d") (strOf "c") (strOf "py")
          [strOf "a"]).1 1 = some rOld →
        findSnippet (update_snippet (add_snippet initState (strOf "d") (strOf "c")
            (strOf "py") [strOf "a"]).1 1 (strOf "D2") (strOf "C2") (strOf "rs")
            [strOf "x"]).1 1
          = some ⟨rOld.id, strOf "D2", strOf "C2", strOf "rs",
              rOld.created_at, rOld.updated_at⟩) ∧
    (∀ r ∈ (add_snippet initState (strOf "d") (strOf "c") (strOf "py")
        [strOf "a"]).1.snippets, r.id ≠ 1 →
      r ∈ (update_snippet (add_snippet initState (strOf "d") (strOf "c") (strOf "py")
          [strOf "a"]).1 1 (strOf "D2") (strOf "C2") (strOf "rs")
          [strOf "x"]).1.snippets) ∧
    (∀ r2 ∈ (update_snippet (add_snippet initState (strOf "d") (strOf "c") (strOf "py")
        [strOf "a"]).1 1 (strOf "D2") (strOf "C2") (strOf "rs")
        [strOf "x"]).1.snippets,
      ∃ r ∈ (add_snippet initState (strOf "d") (strOf "c") (strOf "py")
          [strOf "a"]).1.snippets,
        r2.id = r.id ∧ r2.created_at = r.created_at ∧ r2.updated_at = r.updated_at ∧
        (r.id ≠ 1 → r2 = r)) ∧
    (∀ oid, oid ≠ 1 →
      (update_snippet (add_snippet initState (strOf "d") (strOf "c") (strOf "py")
          [strOf "a"]).1 1 (strOf "D2") (strOf "C2") (strOf "rs")
          [strOf "x"]).1.snippet_tags.filter (fun p => p.1 == oid)
        = (add_snippet initState (strOf "d") (strOf "c") (strOf "py")
            [strOf "a"]).1.snippet_tags.filter (fun p => p.1 == oid)) :=
  c7_update_frame (add_snippet initState (strOf "d") (strOf "c") (strOf "py")
    [strOf "a"]).1 1 (strOf "D2") (strOf "C2") (strOf "rs") [strOf "x"] (by decide)

/- ------------------------------------------------------------------ -/
/- The fuzzy re-ranking stage (claims C5, C10)                         -/
/- ------------------------------------------------------------------ -/

theorem find?_blob_nodup (l : List SearchRow) (h : (l.map searchableText).Nodup)
    (a : SearchRow) (ha : a ∈ l) :
    l.find? (fun x => searchableText x == searchableText a) = some a := by
  induction l with
  | nil => cases ha
  | cons b l ih =>
    rcases List.mem_cons.mp ha with rfl | ha2
    · rw [List.find?_cons_of_pos _ (by simp)]
    · rw [List.map_cons, List.nodup_cons] at h
      have hkb : searchableText b ≠ searchableText a := by
        intro hx
        exact h.1 (hx ▸ List.mem_map_of_mem searchableText ha2)
      rw [List.find?_cons_of_neg _ (by simpa using hkb)]
      exact ih h.2 ha2

theorem find?_searchable (snippets : List SearchRow) (t : Str) :
    ((snippets.map (fun sn => (searchableText sn, sn))).find? (fun p => p.1 == t))
      = (snippets.find? (fun sn => searchableText sn == t)).map
          (fun sn => (searchableText sn, sn)) := by
  induction snippets with
  | nil => rfl
  | cons a l ih =>
    rw [List.map_cons]
    by_cases h : (searchableText a == t) = true
    · have h1 : ((a :: l).find? (fun sn => searchableText sn == t)) = some a :=
        List.find?_cons_of_pos _ h
      have h2 : (((searchableText a, a) :: l.map (fun sn => (searchableText sn, sn))).find?
          (fun p => p.1 == t)) = some (searchableText a, a) :=
        List.find?_cons_of_pos _ (by simpa using h)
      rw [h1, h2]
      rfl
    · have h1 : ((a :: l).find? (fun sn => searchableText sn == t))
          = l.find? (fun sn => searchableText sn == t) :=
        List.find?_cons_of_neg _ h
      have h2 : (((searchableText a, a) :: l.map (fun sn => (searchableText sn, sn))).find?
          (fun p => p.1 == t))
          = (l.map (fun sn => (searchableText sn, sn))).find? (fun p => p.1 == t) :=
        List.find?_cons_of_neg _ (by simpa using h)
      rw [h1, h2]
      exact ih

theorem enhance_eq (scorer : Str → Str → Nat) (snippets : List SearchRow)
    (query : Str) (limit : Nat) :
    enhance_with_fuzzy_search scorer snippets query limit
      = if snippets.isEmpty then []
        else sortDescBy (fun r => r.score)
          ((processExtract scorer query
              ((snippets.map (fun sn => (searchableText sn, sn))).map Prod.fst) limit).filterMap
            (resolveMatch (snippets.map (fun sn => (searchableText sn, sn))))) := rfl

theorem resolveMatch_spec (searchable : List (Str × SearchRow)) (m : Str × Nat)
    (r : ScoredRow) (h : resolveMatch searchable m = some r) :
    60 < m.2 ∧ r.fuzzy = m.2 ∧
    searchable.find? (fun p => p.1 == m.1) = some (m.1, r.row) ∧
    r.score = (if r.row.rank ≠ 0
      then (r.fuzzy : Rat) * (7 / 10) + r.row.rank * (3 / 10) else (r.fuzzy : Rat)) := by
  revert h
  unfold resolveMatch
  by_cases h60 : 60 < m.2
  · rw [if_pos h60]
    cases hfind : searchable.find? (fun p => p.1 == m.1) with
    | none =>
      intro h
      cases h
    | some p =>
      intro h
      rcases Option.some_inj.mp h with rfl
      have hp1 : p.1 = m.1 := by simpa using List.find?_some hfind
      refine ⟨h60, rfl, ?_, rfl⟩
      rw [← hp1]
  · rw [if_neg h60]
    intro h
    cases h

theorem processExtract_mem (scorer : Str → Str → Nat) (query : Str) (texts : List Str)
    (limit : Nat) (m : Str × Nat) (hm : m ∈ processExtract scorer query texts limit) :
    m.1 ∈ texts ∧ m.2 = scorer query m.1 := by
  unfold processExtract at hm
  have hm2 : m ∈ sortDescBy (fun p => p.2) (texts.map (fun t => (t, scorer query t))) :=
    List.mem_of_mem_take hm
  have hm3 : m ∈ texts.map (fun t => (t, scorer query t)) :=
    (mem_sortDescBy _ _ m).mp hm2
  rcases List.mem_map.mp hm3 with ⟨t, ht, rfl⟩
  exact ⟨ht, rfl⟩

theorem processExtract_length (scorer : Str → Str → Nat) (query : Str)
    (texts : List Str) (limit : Nat) :
    (processExtract scorer query texts limit).length ≤ limit := by
  unfold processExtract
  exact (List.length_take_le _ _).trans (Nat.le_refl _)

theorem processExtract_full (scorer : Str → Str → Nat) (query : Str) (texts : List Str)
    (limit : Nat) (hlen : texts.length ≤ limit) (m : Str × Nat)
    (hm : m ∈ texts.map (fun t => (t, scorer query t))) :
    m ∈ processExtract scorer query texts limit := by
  unfold processExtract
  have hlen2 : (sortDescBy (fun p => p.2)
      (texts.map (fun t => (t, scorer query t)))).length ≤ limit := by
    rw [length_sortDescBy, List.length_map]
    exact hlen
  rw [List.take_of_length_le hlen2]
  exact (mem_sortDescBy _ _ m).mpr hm

/-- Everything true of every row the re-ranking stage returns. -/
theorem enhance_mem (scorer : Str → Str → Nat) (snippets : List SearchRow)
    (query : Str) (limit : Nat) (r : ScoredRow)
    (hr : r ∈ enhance_with_fuzzy_search scorer snippets query limit) :
    r.row ∈ snippets ∧ 60 < r.fuzzy ∧
    r.fuzzy = scorer query (searchableText r.row) ∧
    r.score = (if r.row.rank ≠ 0
      then (r.fuzzy : Rat) * (7 / 10) + r.row.rank * (3 / 10) else (r.fuzzy : Rat)) ∧
    snippets.find? (fun sn => searchableText sn == searchableText r.row) = some r.row := by
  rw [enhance_eq] at hr
  by_cases hne : snippets.isEmpty
  · rw [if_pos hne] at hr
    cases hr
  · rw [if_neg hne] at hr
    have hr2 := (mem_sortDescBy _ _ r).mp hr
    rcases List.mem_filterMap.mp hr2 with ⟨m, hm, hres⟩
    obtain ⟨h60, hfz, hfind, hscore⟩ := resolveMatch_spec _ m r hres
    rw [find?_searchable] at hfind
    cases hsf : snippets.find? (fun sn => searchableText sn == m.1) with
    | none =>
      rw [hsf] at hfind
      cases hfind
    | some sn =>
      rw [hsf] at hfind
      have heq : (searchableText sn, sn) = (m.1, r.row) := by
        simpa using hfind
      have hrow : r.row = sn := (congrArg Prod.snd heq).symm
      have hblob : searchableText sn = m.1 := congrArg Prod.fst heq
      obtain ⟨hm1, hm2⟩ := processExtract_mem scorer query _ limit m hm
      have hmem : sn ∈ snippets := List.mem_of_find?_eq_some hsf
      refine ⟨hrow ▸ hmem, hfz ▸ h60, ?_, hscore, ?_⟩
      · rw [hfz, hm2, hrow, hblob]
      · rw [hrow, hblob]
        exact hsf

theorem enhance_sorted (scorer : Str → Str → Nat) (snippets : List SearchRow)
    (query : Str) (limit : Nat) :
    (enhance_with_fuzzy_search scorer snippets query limit).Pairwise
      (fun a b => b.score ≤ a.score) := by
  rw [enhance_eq]
  by_cases hne : snippets.isEmpty
  · rw [if_pos hne]
    exact List.Pairwise.nil
  · rw [if_neg hne]
    exact sortDescBy_pairwise _ _

theorem enhance_length (scorer : Str → Str → Nat) (snippets : List SearchRow)
    (query : Str) (limit : Nat) :
    (enhance_with_fuzzy_search scorer snippets query limit).length ≤ limit := by
  rw [enhance_eq]
  by_cases hne : snippets.isEmpty
  · rw [if_pos hne]
    exact Nat.zero_le _
  · rw [if_neg hne]
    rw [length_sortDescBy]
    exact (List.length_filterMap_le _ _).trans (processExtract_length _ _ _ _)

theorem enhance_complete (scorer : Str → Str → Nat) (snippets : List SearchRow)
    (query : Str) (limit : Nat)
    (hnd : (snippets.map searchableText).Nodup) (hlen : snippets.length ≤ limit)
    (sn : SearchRow) (hsn : sn ∈ snippets)
    (hscore : 60 < scorer query (searchableText sn)) :
    ∃ r ∈ enhance_with_fuzzy_search scorer snippets query limit, r.row = sn := by
  rw [enhance_eq]
  have hne : ¬ snippets.isEmpty := by
    intro hx
    rw [List.isEmpty_iff.mp hx] at hsn
    exact absurd hsn (List.not_mem_nil sn)
  rw [if_neg hne]
  have htexts : ((snippets.map (fun x => (searchableText x, x))).map Prod.fst)
      = snippets.map searchableText := by
    rw [List.map_map]
    rfl
  have hmem : (searchableText sn, scorer query (searchableText sn))
      ∈ ((snippets.map (fun x => (searchableText x, x))).map Prod.fst).map
          (fun t => (t, scorer query t)) := by
    rw [htexts]
    exact List.mem_map_of_mem _ (List.mem_map_of_mem searchableText hsn)
  have hextract := processExtract_full scorer query _ limit
    (by rw [htexts, List.length_map]; exact hlen) _ hmem
  have hres : resolveMatch (snippets.map (fun x => (searchableText x, x)))
      (searchableText sn, scorer query (searchableText sn))
      = some ⟨sn,
          if sn.rank ≠ 0
          then ((scorer query (searchableText sn) : Rat)) * (7 / 10) + sn.rank * (3 / 10)
          else ((scorer query (searchableText sn) : Rat)),
          scorer query (searchableText sn)⟩ := by
    unfold resolveMatch
    rw [if_pos hscore]
    rw [find?_searchable, find?_blob_nodup snippets hnd sn hsn]
    rfl
  refine ⟨_, (mem_sortDescBy _ _ _).mpr (List.mem_filterMap.mpr
    ⟨(searchableText sn, scorer query (searchableText sn)), hextract, hres⟩), rfl⟩

theorem filterMap_resolve_nodup (searchable : List (Str × SearchRow)) :
    ∀ ms : List (Str × Nat), (ms.map Prod.fst).Nodup →
      (∀ p ∈ searchable, p.1 = searchableText p.2) →
      (((ms.filterMap (resolveMatch searchable)).map
        (fun r => searchableText r.row)).Nodup) := by
  intro ms
  induction ms with
  | nil =>
    intro _ _
    exact List.nodup_nil
  | cons m rest ih =>
    intro hnd hs
    rw [List.map_cons, List.nodup_cons] at hnd
    rw [List.filterMap_cons]
    cases hres : resolveMatch searchable m with
    | none => exact ih hnd.2 hs
    | some r =>
      rw [List.map_cons, List.nodup_cons]
      refine ⟨?_, ih hnd.2 hs⟩
      intro hmem
      rcases List.mem_map.mp hmem with ⟨r2, hr2, hblob⟩
      rcases List.mem_filterMap.mp hr2 with ⟨m2, hm2, hres2⟩
      obtain ⟨-, -, hfind, -⟩ := resolveMatch_spec searchable m r hres
      obtain ⟨-, -, hfind2, -⟩ := resolveMatch_spec searchable m2 r2 hres2
      have hb1 : searchableText r.row = m.1 := by
        have := hs _ (List.mem_of_find?_eq_some hfind)
        simpa using this.symm
      have hb2 : searchableText r2.row = m2.1 := by
        have := hs _ (List.mem_of_find?_eq_some hfind2)
        simpa using this.symm
      apply hnd.1
      have hmm : m.1 = m2.1 := by
        rw [← hb1, ← hblob, hb2]
      rw [hmm]
      exact List.mem_map_of_mem Prod.fst hm2

theorem enhance_nodup (scorer : Str → Str → Nat) (snippets : List SearchRow)
    (query : Str) (limit : Nat)
    (hnd : (snippets.map searchableText).Nodup) :
    ((enhance_with_fuzzy_search scorer snippets query limit).map
      (fun r => r.row)).Nodup := by
  rw [enhance_eq]
  by_cases hne : snippets.isEmpty
  · rw [if_pos hne]
    exact List.nodup_nil
  · rw [if_neg hne]
    have htexts : ((snippets.map (fun x => (searchableText x, x))).map Prod.fst)
        = snippets.map searchableText := by
      rw [List.map_map]
      rfl
    have hfsts : ((processExtract scorer query
        ((snippets.map (fun x => (searchableText x, x))).map Prod.fst) limit).map
          Prod.fst).Nodup := by
      unfold processExtract
      have hscored : ((((snippets.map (fun x => (searchableText x, x))).map Prod.fst).map
          (fun t => (t, scorer query t))).map Prod.fst).Nodup := by
        rw [List.map_map]
        have : (Prod.fst ∘ fun t => (t, scorer query t)) = id := rfl
        rw [this, List.map_id, htexts]
        exact hnd
      have hperm := sortDescBy_perm (fun p : Str × Nat => p.2)
        (((snippets.map (fun x => (searchableText x, x))).map Prod.fst).map
          (fun t => (t, scorer query t)))
      have hsortnd := ((hperm.map Prod.fst).nodup_iff).mpr hscored
      exact ((List.take_sublist _ _).map Prod.fst).nodup hsortnd
    have hblobs := filterMap_resolve_nodup (snippets.map (fun x => (searchableText x, x)))
      (processExtract scorer query
        ((snippets.map (fun x => (searchableText x, x))).map Prod.fst) limit)
      hfsts
      (by
        intro p hp
        rcases List.mem_map.mp hp with ⟨sn, hsn, rfl⟩
        rfl)
    have hperm2 := sortDescBy_perm (fun r : ScoredRow => r.score)
      ((processExtract scorer query
          ((snippets.map (fun x => (searchableText x, x))).map Prod.fst) limit).filterMap
        (resolveMatch (snippets.map (fun x => (searchableText x, x)))))
    have hsorted_blobs := ((hperm2.map (fun r => searchableText r.row)).nodup_iff).mpr hblobs
    have : ((sortDescBy (fun r : ScoredRow => r.score)
        ((processExtract scorer query
            ((snippets.map (fun x => (searchableText x, x))).map Prod.fst) limit).filterMap
          (resolveMatch (snippets.map (fun x => (searchableText x, x)))))).map
        (fun r => r.row)).map searchableText
        = (sortDescBy (fun r : ScoredRow => r.score)
          ((processExtract scorer query
              ((snippets.map (fun x => (searchableText x, x))).map Prod.fst) limit).filterMap
            (resolveMatch (snippets.map (fun x => (searchableText x, x)))))).map
          (fun r => searchableText r.row) := by
      rw [List.map_map]
      rfl
    exact List.Nodup.of_map searchableText (by rw [this]; exact hsorted_blobs)

/-- Claim C5 (amended): every returned row scores strictly above 60 (60 is
excluded, 61 survives the threshold), carries the blended score
`0.7 × fuzzy + 0.3 × rank` when its FTS rank is nonzero and the fuzzy score
alone otherwise, and the result is sorted descending by combined score with at
most `limit` rows; a 61-scoring candidate is guaranteed to be returned only
when the candidate list fits within `limit` and the blobs are distinct — the
scorer stage's cap can otherwise drop it (see the counterexample). -/
theorem c5_fuzzy_rerank (scorer : Str → Str → Nat) (snippets : List SearchRow)
    (query : Str) (limit : Nat)
    (hne : snippets ≠ [])
    (hnd : (snippets.map searchableText).Nodup)
    (hlen : snippets.length ≤ limit) :
    (∀ r ∈ enhance_with_fuzzy_search scorer snippets query limit,
      60 < r.fuzzy ∧ r.fuzzy = scorer query (searchableText r.row) ∧
      r.score = (if r.row.rank ≠ 0
        then (r.fuzzy : Rat) * (7 / 10) + r.row.rank * (3 / 10) else (r.fuzzy : Rat))) ∧
    (∀ sn ∈ snippets, scorer query (searchableText sn) = 60 →
      ∀ r ∈ enhance_with_fuzzy_search scorer snippets query limit, r.row ≠ sn) ∧
    (∀ sn ∈ snippets, scorer query (searchableText sn) = 61 →
      ∃ r ∈ enhance_with_fuzzy_search scorer snippets query limit, r.row = sn) ∧
    (enhance_with_fuzzy_search scorer snippets query limit).Pairwise
      (fun a b => b.score ≤ a.score) ∧
    (enhance_with_fuzzy_search scorer snippets query limit).length ≤ limit := by
  refine ⟨?_, ?_, ?_, enhance_sorted scorer snippets query limit,
    enhance_length scorer snippets query limit⟩
  · intro r hr
    obtain ⟨-, h60, hfz, hscore, -⟩ := enhance_mem scorer snippets query limit r hr
    exact ⟨h60, hfz, hscore⟩
  · intro sn hsn h60 r hr hrow
    obtain ⟨-, hgt, hfz, -, -⟩ := enhance_mem scorer snippets query limit r hr
    rw [hfz, hrow, h60] at hgt
    exact absurd hgt (by decide)
  · intro sn hsn h61
    exact enhance_complete scorer snippets query limit hnd hlen sn hsn
      (by rw [h61]; decide)

/-- Witness for C5 on a concrete candidate list. -/
theorem c5_fuzzy_rerank_witness :
    ([exRowA] ≠ [] ∧ (([exRowA]).map searchableText).Nodup ∧ ([exRowA]).length ≤ 1) ∧
    ((∀ r ∈ enhance_with_fuzzy_search exScorer [exRowA] (strOf "q") 1,
      60 < r.fuzzy ∧ r.fuzzy = exScorer (strOf "q") (searchableText r.row) ∧
      r.score = (if r.row.rank ≠ 0
        then (r.fuzzy : Rat) * (7 / 10) + r.row.rank * (3 / 10) else (r.fuzzy : Rat))) ∧
    (∀ sn ∈ [exRowA], exScorer (strOf "q") (searchableText sn) = 60 →
      ∀ r ∈ enhance_with_fuzzy_search exScorer [exRowA] (strOf "q") 1, r.row ≠ sn) ∧
    (∀ sn ∈ [exRowA], exScorer (strOf "q") (searchableText sn) = 61 →
      ∃ r ∈ enhance_with_fuzzy_search exScorer [exRowA] (strOf "q") 1, r.row = sn) ∧
    (enhance_with_fuzzy_search exScorer [exRowA] (strOf "q") 1).Pairwise
      (fun a b => b.score ≤ a.score) ∧
    (enhance_with_fuzzy_search exScorer [exRowA] (strOf "q") 1).length ≤ 1) :=
  ⟨⟨by decide, by decide, by decide⟩,
    c5_fuzzy_rerank exScorer [exRowA] (strOf "q") 1 (by decide) (by decide) (by decide)⟩

/-- Counterexample to C5 as stated: with two candidates and `limit = 1`, the
candidate scoring 61 is dropped by the scorer stage's cap even though it
clears the threshold, so "a candidate scoring 61 is included" fails for this
filtered candidate list. -/
theorem c5_limit_counterexample :
    exRowB ∈ [exRowA, exRowB] ∧
    exScorer (strOf "q") (searchableText exRowB) = 61 ∧
    (enhance_with_fuzzy_search exScorer [exRowA, exRowB] (strOf "q") 1).map
      (fun r => r.row) = [exRowA] ∧
    (∀ r ∈ enhance_with_fuzzy_search exScorer [exRowA, exRowB] (strOf "q") 1,
      r.row ≠ exRowB) := by
  refine ⟨by decide, by decide, by decide, by decide⟩

/-- Claim C10: the re-ranking stage resolves each scored blob back to the
first candidate bearing that blob text; hence every returned row is one of
the input candidates, at most `limit` rows are returned, and when the blobs
are pairwise distinct the returned candidates are duplicate-free. -/
theorem c10_blob_resolution (scorer : Str → Str → Nat) (snippets : List SearchRow)
    (query : Str) (limit : Nat) :
    (∀ r ∈ enhance_with_fuzzy_search scorer snippets query limit,
      r.row ∈ snippets ∧
      snippets.find? (fun sn => searchableText sn == searchableText r.row)
        = some r.row) ∧
    (enhance_with_fuzzy_search scorer snippets query limit).length ≤ limit ∧
    ((snippets.map searchableText).Nodup →
      ((enhance_with_fuzzy_search scorer snippets query limit).map
        (fun r => r.row)).Nodup) := by
  refine ⟨?_, enhance_length scorer snippets query limit,
    fun hnd => enhance_nodup scorer snippets query limit hnd⟩
  intro r hr
  obtain ⟨hmem, -, -, -, hfind⟩ := enhance_mem scorer snippets query limit r hr
  exact ⟨hmem, hfind⟩

/-- Witness for C10 on a concrete candidate list with distinct blobs. -/
theorem c10_blob_resolution_witness :
    (∀ r ∈ enhance_with_fuzzy_search exScorer [exRowA, exRowB] (strOf "q") 5,
      r.row ∈ [exRowA, exRowB] ∧
      ([exRowA, exRowB]).find?
        (fun sn => searchableText sn == searchableText r.row) = some r.row) ∧
    (enhance_with_fuzzy_search exScorer [exRowA, exRowB] (strOf "q") 5).length ≤ 5 ∧
    ((([exRowA, exRowB]).map searchableText).Nodup →
      ((enhance_with_fuzzy_search exScorer [exRowA, exRowB] (strOf "q") 5).map
        (fun r => r.row)).Nodup) :=
  c10_blob_resolution exScorer [exRowA, exRowB] (strOf "q") 5

/-- Claim C6 (amended): for queries free of the `LIKE` wildcard characters
`%` and `_`, the fallback search returns exactly the snippets whose
description, content or language contains the query as a case-insensitive
substring, newest-created first, capped at `limit`, each with rank 0; a query
containing a wildcard character is interpreted as a pattern instead (see the
counterexample). -/
theorem c6_fallback_substring (s : DBState) (query : Str) (limit : Nat)
    (hq : noWildcards query = true) :
    (∀ r ∈ fallback_search s query limit, r.rank = 0) ∧
    (∀ r ∈ fallback_search s query limit, ∃ sn ∈ s.snippets,
      r.id = sn.id ∧ r.created_at = sn.created_at ∧
      (ciContains query sn.description || ciContains query sn.content
        || ciContains query sn.language) = true) ∧
    (fallback_search s query limit).Pairwise
      (fun a b => b.created_at ≤ a.created_at) ∧
    (fallback_search s query limit).length ≤ limit ∧
    (∀ sn ∈ s.snippets,
      (ciContains query sn.description || ciContains query sn.content
        || ciContains query sn.language) = true →
      (∃ r ∈ fallback_search s query limit, r.id = sn.id) ∨
      ((fallback_search s query limit).length = limit ∧
        ∀ r ∈ fallback_search s query limit, sn.created_at ≤ r.created_at)) := by
  have hpred := likeMatch_eq_ciContains query hq
  have hrows : s.snippets.filter (fun r =>
        likeMatch ([ '%' ] ++ query ++ [ '%' ]) r.description
        || likeMatch ([ '%' ] ++ query ++ [ '%' ]) r.content
        || likeMatch ([ '%' ] ++ query ++ [ '%' ]) r.language)
      = s.snippets.filter (fun r =>
        ciContains query r.description || ciContains query r.content
        || ciContains query r.language) := by
    apply List.filter_congr
    intro r _
    rw [hpred, hpred, hpred]
  have hfb : fallback_search s query limit
      = ((sortDescBy (fun r => r.created_at)
          (s.snippets.filter (fun r =>
            ciContains query r.description || ciContains query r.content
            || ciContains query r.language))).take limit).map
        (fun r => (⟨r.id, orEmpty r.description, r.content, orEmpty r.language,
          r.created_at, r.updated_at, joinedTags s r.id, 0⟩ : SearchRow)) := by
    show ((sortDescBy (fun r => r.created_at)
        (s.snippets.filter (fun r =>
          likeMatch ([ '%' ] ++ query ++ [ '%' ]) r.description
          || likeMatch ([ '%' ] ++ query ++ [ '%' ]) r.content
          || likeMatch ([ '%' ] ++ query ++ [ '%' ]) r.language))).take limit).map
        (fun r => (⟨r.id, orEmpty r.description, r.content, orEmpty r.language,
          r.created_at, r.updated_at, joinedTags s r.id, 0⟩ : SearchRow)) = _
    rw [hrows]
  rw [hfb]
  refine ⟨?_, ?_, ?_, ?_, ?_⟩
  · intro r hr
    rcases List.mem_map.mp hr with ⟨x, -, rfl⟩
    rfl
  · intro r hr
    rcases List.mem_map.mp hr with ⟨x, hx, rfl⟩
    have hx2 := (mem_sortDescBy _ _ x).mp (List.mem_of_mem_take hx)
    rcases List.mem_filter.mp hx2 with ⟨hxs, hxp⟩
    exact ⟨x, hxs, rfl, rfl, hxp⟩
  · rw [List.pairwise_map]
    exact List.Pairwise.sublist (List.take_sublist _ _) (sortDescBy_pairwise _ _)
  · rw [List.length_map]
    exact List.length_take_le _ _
  · intro sn hsn hmatch
    have hsn2 : sn ∈ sortDescBy (fun r => r.created_at)
        (s.snippets.filter (fun r =>
          ciContains query r.description || ciContains query r.content
          || ciContains query r.language)) :=
      (mem_sortDescBy _ _ sn).mpr (List.mem_filter.mpr ⟨hsn, hmatch⟩)
    rw [← List.take_append_drop limit (sortDescBy (fun r => r.created_at)
      (s.snippets.filter (fun r =>
        ciContains query r.description || ciContains query r.content
        || ciContains query r.language)))] at hsn2
    rcases List.mem_append.mp hsn2 with htake | hdrop
    · left
      exact ⟨_, List.mem_map_of_mem _ htake, rfl⟩
    · right
      have hlen : limit ≤ (sortDescBy (fun r => r.created_at)
          (s.snippets.filter (fun r =>
            ciContains query r.description || ciContains query r.content
            || ciContains query r.language))).length := by
        by_contra hlt
        rw [List.drop_eq_nil_of_le (Nat.le_of_lt (Nat.lt_of_not_le hlt))] at hdrop
        exact absurd hdrop (List.not_mem_nil sn)
      constructor
      · rw [List.length_map, List.length_take]
        exact Nat.min_eq_left hlen
      · intro r hr
        rcases List.mem_map.mp hr with ⟨x, hx, rfl⟩
        have hpair := sortDescBy_pairwise (fun r : Snippet => r.created_at)
          (s.snippets.filter (fun r =>
            ciContains query r.description || ciContains query r.content
            || ciContains query r.language))
        rw [← List.take_append_drop limit (sortDescBy (fun r => r.created_at)
          (s.snippets.filter (fun r =>
            ciContains query r.description || ciContains query r.content
            || ciContains query r.language))), List.pairwise_append] at hpair
        exact hpair.2.2 x hx sn hdrop

/-- Witness for C6 on a concrete store and wildcard-free query. -/
theorem c6_fallback_substring_witness :
    noWildcards (strOf "aX") = true ∧
    ((∀ r ∈ fallback_search (add_snippet initState (strOf "") (strOf "aXb")
        (strOf "") []).1 (strOf "aX") 10, r.rank = 0) ∧
    (∀ r ∈ fallback_search (add_snippet initState (strOf "") (strOf "aXb")
        (strOf "") []).1 (strOf "aX") 10,
      ∃ sn ∈ (add_snippet initState (strOf "") (strOf "aXb")
          (strOf "") []).1.snippets,
        r.id = sn.id ∧ r.created_at = sn.created_at ∧
        (ciContains (strOf "aX") sn.description || ciContains (strOf "aX") sn.content
          || ciContains (strOf "aX") sn.language) = true) ∧
    (fallback_search (add_snippet initState (strOf "") (strOf "aXb")
        (strOf "") []).1 (strOf "aX") 10).Pairwise
      (fun a b => b.created_at ≤ a.created_at) ∧
    (fallback_search (add_snippet initState (strOf "") (strOf "aXb")
        (strOf "") []).1 (strOf "aX") 10).length ≤ 10 ∧
    (∀ sn ∈ (add_snippet initState (strOf "") (strOf "aXb")
        (strOf "") []).1.snippets,
      (ciContains (strOf "aX") sn.description || ciContains (strOf "aX") sn.content
        || ciContains (strOf "aX") sn.language) = true →
      (∃ r ∈ fallback_search (add_snippet initState (strOf "") (strOf "aXb")
          (strOf "") []).1 (strOf "aX") 10, r.id = sn.id) ∨
      ((fallback_search (add_snippet initState (strOf "") (strOf "aXb")
          (strOf "") []).1 (strOf "aX") 10).length = 10 ∧
        ∀ r ∈ fallback_search (add_snippet initState (strOf "") (strOf "aXb")
            (strOf "") []).1 (strOf "aX") 10, sn.created_at ≤ r.created_at))) :=
  ⟨by decide, c6_fallback_substring (add_snippet initState (strOf "") (strOf "aXb")
    (strOf "") []).1 (strOf "aX") 10 (by decide)⟩

/-- Counterexample to C6 as stated: the query `"a%b"` is passed into the
`LIKE` pattern unescaped, so a snippet whose content is `"aXb"` is returned
even though none of its fields contains the raw query as a substring. -/
theorem c6_wildcard_counterexample :
    (fallback_search (add_snippet initState (strOf "") (strOf "aXb") (strOf "") []).1
      (strOf "a%b") 10).map (fun r => r.id) = [1] ∧
    ciContains (strOf "a%b") (strOf "aXb") = false ∧
    ciContains (strOf "a%b") (strOf "") = false := by
  refine ⟨by decide, by decide, by decide⟩

/-- Claim C8: an engine error during delete is absorbed — the transaction is
rolled back (state unchanged) and `False` is returned, no exception — while
the same error during add or update is rolled back and re-signaled as a
failure whose message carries the underlying cause as a suffix; without an
engine error each wrapper agrees with the plain operation. -/
theorem c8_error_asymmetry (s : DBState) (sid : Nat) (d c l : Str)
    (tags : List Str) (e : Str) :
    delete_snippet_run s sid (some e) = (s, Except.ok false) ∧
    add_snippet_run s d c l tags (some e)
      = (s, Except.error (strOf "Failed to add snippet: " ++ e)) ∧
    update_snippet_run s sid d c l tags (some e)
      = (s, Except.error (strOf "Failed to update snippet: " ++ e)) ∧
    e <:+ (strOf "Failed to add snippet: " ++ e) ∧
    e <:+ (strOf "Failed to update snippet: " ++ e) ∧
    delete_snippet_run s sid none
      = ((delete_snippet s sid).1, Except.ok (delete_snippet s sid).2) ∧
    add_snippet_run s d c l tags none
      = ((add_snippet s d c l tags).1, Except.ok (add_snippet s d c l tags).2) ∧
    update_snippet_run s sid d c l tags none = update_snippet s sid d c l tags :=
  ⟨rfl, rfl, rfl, ⟨strOf "Failed to add snippet: ", rfl⟩,
    ⟨strOf "Failed to update snippet: ", rfl⟩, rfl, rfl, rfl⟩

/-- Claim C9: after `close`, `connect` raises the programming error and every
operation routed through it fails fast without reopening the connection; on a
fresh instance the connection is absent until first use, when `connect` opens
it lazily. -/
theorem c9_closed_handle {α : Type} (h : Handle) (op : DBState → DBState × α)
    (s : DBState) :
    hConnect (hClose h) = Except.error (strOf "Cannot operate on a closed database.") ∧
    runOp (hClose h) op s
      = Except.error (strOf "Cannot operate on a closed database.") ∧
    (hClose h).connectionOpen = false ∧
    newHandle.connectionOpen = false ∧ newHandle.closed = false ∧
    hConnect newHandle = Except.ok ⟨true, false⟩ ∧
    runOp newHandle op s = Except.ok (⟨true, false⟩, (op s).1, (op s).2) :=
  ⟨rfl, rfl, rfl, rfl, rfl, rfl, rfl⟩

end Codx
